import Mathlib

/-!
Verification development for the `express-openapi-decorators` library.

The TypeScript source (src/decorators.mts in the repository) is shallowly
embedded below:

* decorator application (`@method`, `@path`, `@middleware`, `@tag`,
  `@summary`, `@description`, `@operationId`, `@requestBody`, `@response`)
  becomes pure functions over an explicit `Metadata` record; JS `Map`s are
  modelled as insertion-ordered association lists (JS maps and plain objects
  iterate keys in insertion order, and map keys are unique);
* `registerControllers` becomes a pure function producing the list of
  resolved route records (the registrar side effect registers exactly this
  list, in order);
* `getOpenAPISchema` becomes a function into `Except String`, errors
  modelling thrown exceptions; the express-path to OpenAPI-path translation
  (the two regexes on lines 441 and 448 of the source) is embedded as an
  explicit character-level scanner with the same backtracking semantics;
* `generateSchemaDefinitions`'s post-processing pass `fixSchema` is embedded
  over a JSON value type (`JVal`); the external `ts-json-schema-generator`
  collaborator is out of scope, as are file globbing and Express itself;
* `structuredClone` and the aliasing discipline of the synthesized document
  are modelled separately on an explicit heap of JSON nodes.

Handler member names are modelled as strings (symbol-named class members are
not modelled; no claim involves them).  Express middleware handlers are
opaque and modelled by numeric identifiers.
-/

namespace EOD

/-! ### Association lists (JS Map / plain object model)

`lookupA` is `Map.prototype.get` / property read; `setA` is
`Map.prototype.set` / property write: it overwrites the value in place when
the key is present and appends the pair otherwise, which is exactly the key
ordering JS maps and string-keyed objects maintain. -/

def lookupA {α β : Type} [DecidableEq α] (k : α) : List (α × β) → Option β
  | [] => none
  | (k', v) :: rest => if k' = k then some v else lookupA k rest

def setA {α β : Type} [DecidableEq α] (k : α) (v : β) : List (α × β) → List (α × β)
  | [] => [(k, v)]
  | (k', v') :: rest => if k' = k then (k', v) :: rest else (k', v') :: setA k v rest

/-! ### Declaration sites and annotation kinds -/

/-- A declaration site: the class itself (the `CLASS_METADATA` sentinel key)
or a named class method (`context.name`). -/
inductive Site where
  | cls
  | method (name : String)
deriving DecidableEq, Repr

inductive HttpMethod where
  | GET | POST | PUT | DELETE | HEAD | OPTIONS | PATCH | TRACE
deriving DecidableEq, Repr

/-- `method.toLowerCase()` for the eight supported verbs. -/
def HttpMethod.lower : HttpMethod → String
  | .GET => "get"
  | .POST => "post"
  | .PUT => "put"
  | .DELETE => "delete"
  | .HEAD => "head"
  | .OPTIONS => "options"
  | .PATCH => "patch"
  | .TRACE => "trace"

/-- `nameToSchemaRef`'s possible results: a direct `$ref` object or an
array-typed schema whose `items` is a `$ref` object. -/
inductive SchemaRefObj where
  | ref (path : String)
  | arrayOf (itemsRef : String)
deriving DecidableEq, Repr

/-- `nameToSchemaRef` (source lines 559-571): a name ending in `[]` becomes an
array schema over a reference to the name with the marker stripped, any other
name becomes a direct reference. -/
def nameToSchemaRef (name : String) : SchemaRefObj :=
  match name.data.reverse with
  | ']' :: '[' :: _ =>
    .arrayOf ("#/components/schemas/" ++ String.mk (name.data.take (name.data.length - 2)))
  | _ => .ref ("#/components/schemas/" ++ name)

/-- The schema objects appearing in media-type entries: the literal shapes
used by the built-in default responses plus resolved schema references. -/
inductive SchemaJ where
  | strTy
  | strTyEx (ex : String)
  | refTo (r : SchemaRefObj)
deriving DecidableEq, Repr

/-- A media-type entry of a content map: either the `Record<string, string>`
shorthand (a schema name, still unresolved) or a media object carrying a
schema. -/
inductive MediaEntry where
  | strRef (s : String)
  | withSchema (schema : SchemaJ)
deriving DecidableEq, Repr

abbrev ContentMap := List (String × MediaEntry)

/-- `ResponseContentMetadata`: a full content object, a record of
content-type to schema-name strings, or a bare schema-name string. -/
inductive ContentMeta where
  | str (s : String)
  | map (m : ContentMap)
deriving DecidableEq, Repr

/-- Response headers are opaque to every claim; modelled as a key/value
listing. -/
abbrev HeadersMeta := List (String × String)

/-- One `@response(code, content?, description?, headers?)` tuple
(`ResponseMetadata` in the source). -/
structure ResponseMeta where
  code : Nat
  content : Option ContentMeta := none
  description : Option String := none
  headers : Option HeadersMeta := none
deriving DecidableEq, Repr

/-- `RequestBodyObject`: content plus the optional `required` flag. -/
structure RBObject where
  content : ContentMap
  required : Option Bool := none
deriving DecidableEq, Repr

/-- `RequestBodyMetadata`: an inline request-body object or a schema name. -/
inductive RequestBodyMeta where
  | str (s : String)
  | obj (o : RBObject)
deriving DecidableEq, Repr

/-- The per-class annotation store: one insertion-ordered map per annotation
kind, keyed by declaration site (`context.metadata[SYMBOL]` in the source).
An absent JS map and a present empty map are indistinguishable to every
reader in the source, so both are the empty list. -/
structure Metadata where
  methodMap : List (Site × HttpMethod) := []
  pathMap : List (Site × List String) := []
  middlewareMap : List (Site × List Nat) := []
  tagMap : List (Site × List String) := []
  summaryMap : List (Site × String) := []
  descriptionMap : List (Site × String) := []
  operationIdMap : List (Site × String) := []
  requestBodyMap : List (Site × RequestBodyMeta) := []
  responseMap : List (Site × List ResponseMeta) := []
deriving DecidableEq, Repr

def dupMsg : String := "This decorator may be applied at most once per method."
def methodOnlyMsg : String := "This decorator can only be used on class methods."

/-! ### Annotation application (the decorator bodies)

Each function models one decorator's returned function applied at a given
declaration site, acting on the class's metadata.  The `context.kind` check
is modelled by the `Site` argument (for method-only decorators a class site
is the error path); the `context.metadata` availability check is host
environment behaviour outside the model. -/

/-- `@method(m)` (source lines 22-38): at most once per site. -/
def applyMethod (site : Site) (m : HttpMethod) (md : Metadata) : Except String Metadata :=
  if (lookupA site md.methodMap).isSome then .error dupMsg
  else .ok { md with methodMap := md.methodMap ++ [(site, m)] }

/-- Append values at the end of the ordered list stored at `site`, creating
the list (at the end of the map, preserving insertion order) if absent
(`let list = map.get(key); if (!list) map.set(key, list = []); list.push(...)`). -/
def appendAt {α : Type} (site : Site) (vs : List α) (l : List (Site × List α)) : List (Site × List α) :=
  match lookupA site l with
  | some old => setA site (old ++ vs) l
  | none => l ++ [(site, vs)]

/-- `@path(p)` (source lines 68-84): accumulates. -/
def applyPath (site : Site) (p : String) (md : Metadata) : Metadata :=
  { md with pathMap := appendAt site [p] md.pathMap }

/-- `@middleware(...ms)` (source lines 96-112): accumulates all arguments. -/
def applyMiddleware (site : Site) (ms : List Nat) (md : Metadata) : Metadata :=
  { md with middlewareMap := appendAt site ms md.middlewareMap }

/-- `@tag(...ts)` (source lines 122-138): accumulates all arguments. -/
def applyTag (site : Site) (ts : List String) (md : Metadata) : Metadata :=
  { md with tagMap := appendAt site ts md.tagMap }

/-- `@summary(s)` (source lines 148-163): method-only, at most once. -/
def applySummary (site : Site) (s : String) (md : Metadata) : Except String Metadata :=
  match site with
  | .cls => .error methodOnlyMsg
  | .method _ =>
    if (lookupA site md.summaryMap).isSome then .error dupMsg
    else .ok { md with summaryMap := md.summaryMap ++ [(site, s)] }

/-- `@description(d)` (source lines 173-188): method-only, at most once. -/
def applyDescription (site : Site) (d : String) (md : Metadata) : Except String Metadata :=
  match site with
  | .cls => .error methodOnlyMsg
  | .method _ =>
    if (lookupA site md.descriptionMap).isSome then .error dupMsg
    else .ok { md with descriptionMap := md.descriptionMap ++ [(site, d)] }

/-- `@operationId(o)` (source lines 198-213): method-only, at most once. -/
def applyOperationId (site : Site) (o : String) (md : Metadata) : Except String Metadata :=
  match site with
  | .cls => .error methodOnlyMsg
  | .method _ =>
    if (lookupA site md.operationIdMap).isSome then .error dupMsg
    else .ok { md with operationIdMap := md.operationIdMap ++ [(site, o)] }

/-- `@requestBody(rb)` (source lines 229-244): method-only, at most once. -/
def applyRequestBody (site : Site) (rb : RequestBodyMeta) (md : Metadata) : Except String Metadata :=
  match site with
  | .cls => .error methodOnlyMsg
  | .method _ =>
    if (lookupA site md.requestBodyMap).isSome then .error dupMsg
    else .ok { md with requestBodyMap := md.requestBodyMap ++ [(site, rb)] }

/-- `@response(code, content?, description?, headers?)` (source lines
278-299): accumulates one tuple. -/
def applyResponse (site : Site) (r : ResponseMeta) (md : Metadata) : Metadata :=
  { md with responseMap := appendAt site [r] md.responseMap }

/-! ### The express-path to OpenAPI-path translator

The source uses the regex `:([a-zA-Z0-9_]+)(?:\(((?:\\\)|[^)])+)\))?` both to
rewrite the path (`path.replace(..., "\x7b$1\x7d")`, line 441) and to extract
parameter descriptors (the `exec` loop, lines 448-464).  It is embedded as a
left-to-right scanner over the character list with the regex engine's
semantics:

* a parameter starts at `:` followed by one or more word characters
  (`[a-zA-Z0-9_]`, ASCII);
* an optional constraint follows: `(`, then one or more repetitions each of
  which is the two-character escape `\)` (tried first) or any single
  character other than `)`, greedy with backtracking, then a literal `)`.
  Greedy scanning stops at the first bare `)`; if the input ends before a
  closing `)` is found, the engine backtracks: the last `\)` escape is
  reinterpreted as a lone `\` character followed by the closing `)` (a bare
  `)` can only enter the consumed text through an escape, so the last `)` in
  the consumed text marks the last escape); with no escape to split, the
  whole optional group fails and the match is the bare `:name`. -/

def isWordChar (c : Char) : Bool := c.isAlpha || c.isDigit || c = '_'

def isEnumChar (c : Char) : Bool := isWordChar c || c = '|'

/-- `pattern.match(/^[a-zA-Z0-9_|]+$/)` viewed as a Bool (line 449). -/
def enumPatternMatch (s : String) : Bool := !s.data.isEmpty && s.data.all isEnumChar

/-- One extracted parameter occurrence: its name and its optional raw
constraint pattern. -/
structure PathParam where
  name : String
  pat : Option String
deriving DecidableEq, Repr

/-- Longest `[a-zA-Z0-9_]*` prefix and the remainder. -/
def splitName : List Char → List Char × List Char
  | [] => ([], [])
  | c :: rest =>
    if isWordChar c then
      let (n, r) := splitName rest
      (c :: n, r)
    else ([], c :: rest)

/-- Index of the last `)` in a character list, if any. -/
def lastCloseIdx : List Char → Option Nat
  | [] => none
  | c :: rest =>
    match lastCloseIdx rest with
    | some i => some (i + 1)
    | none => if c = ')' then some 0 else none

/-- The constraint matcher, on the characters after the opening `(`.
Returns the captured pattern and the characters after the closing `)`. -/
def constraintGo (acc : List Char) : List Char → Option (List Char × List Char)
  | [] =>
    match lastCloseIdx acc with
    | some k => some (acc.take k, acc.drop (k + 1))
    | none => none
  | ')' :: rest => if acc.isEmpty then none else some (acc, rest)
  | '\\' :: ')' :: rest => constraintGo (acc ++ ['\\', ')']) rest
  | c :: rest => constraintGo (acc ++ [c]) rest

theorem splitName_len (cs : List Char) :
    (splitName cs).1.length + (splitName cs).2.length = cs.length := by
  induction cs with
  | nil => simp [splitName]
  | cons c rest ih =>
    simp only [splitName]
    split
    · simpa using by omega
    · simp

theorem constraintGo_len (acc cs content rest : List Char)
    (h : constraintGo acc cs = some (content, rest)) :
    rest.length ≤ acc.length + cs.length := by
  induction acc, cs using constraintGo.induct generalizing content rest with
  | case1 acc k hk =>
    simp only [constraintGo, hk] at h
    cases h
    simp only [List.length_drop, List.length_nil]
    omega
  | case2 acc hk =>
    simp [constraintGo, hk] at h
  | case3 acc rest' hemp =>
    simp [constraintGo, hemp] at h
  | case4 acc rest' hemp =>
    simp only [constraintGo, if_neg hemp] at h
    cases h
    simp only [List.length_cons]
    omega
  | case5 acc rest' ih =>
    simp only [constraintGo] at h
    have := ih content rest h
    simp only [List.length_append, List.length_cons, List.length_nil] at this ⊢
    omega
  | case6 acc c rest' hne hne2 ih =>
    simp only [constraintGo] at h
    have := ih content rest h
    simp only [List.length_append, List.length_cons, List.length_nil] at this ⊢
    omega

/-- A scanned path: literal characters interleaved with parameter matches. -/
inductive PathTok where
  | lit (c : Char)
  | par (p : PathParam)
deriving DecidableEq, Repr

/-- One attempted parameter match at a position right after `:`: the name
(nonempty run of word characters) and the optional constraint; returns the
parameter and the unconsumed remainder, or `none` when no word character
follows the `:`. -/
def tryParam (rest : List Char) : Option (PathParam × List Char) :=
  let nm := (splitName rest).1
  let rest' := (splitName rest).2
  if nm = [] then none
  else
    match rest' with
    | '(' :: cs =>
      match constraintGo [] cs with
      | some cr => some (⟨String.mk nm, some (String.mk cr.1)⟩, cr.2)
      | none => some (⟨String.mk nm, none⟩, rest')
    | _ => some (⟨String.mk nm, none⟩, rest')

theorem tryParam_len (rest : List Char) (pr : PathParam × List Char)
    (h : tryParam rest = some pr) : pr.2.length ≤ rest.length := by
  unfold tryParam at h
  by_cases hn : (splitName rest).1 = []
  · simp [hn] at h
  · have hlen := splitName_len rest
    have hn' : 0 < ((splitName rest).1).length := List.length_pos.mpr hn
    simp only [hn, if_false] at h
    split at h
    · rename_i cs hcs
      split at h
      · rename_i cr hcr
        cases h
        have h1 := constraintGo_len [] cs cr.1 cr.2 hcr
        have h2 : ((splitName rest).2).length = cs.length + 1 := by rw [hcs]; simp
        simp only [List.length_nil] at h1
        simp
        omega
      · cases h
        simp
        omega
    · cases h
      simp
      omega

/-- The scanner: finds the regex's matches left to right (on failure at a
position the engine advances one character, exactly as `replace`/global
`exec` do). -/
def scanPath (l : List Char) : List PathTok :=
  match l with
  | [] => []
  | ':' :: rest =>
    match h : tryParam rest with
    | some pr => .par pr.1 :: scanPath pr.2
    | none => .lit ':' :: scanPath rest
  | c :: rest => .lit c :: scanPath rest
termination_by l.length
decreasing_by
  · have := tryParam_len rest pr h
    simp only [List.length_cons]
    omega
  · simp only [List.length_cons]
    omega
  · simp only [List.length_cons]
    omega

theorem scanPath_nil : scanPath [] = [] := by
  rw [scanPath.eq_def]

theorem scanPath_colon_param (rest : List Char) (pr : PathParam × List Char)
    (h : tryParam rest = some pr) :
    scanPath (':' :: rest) = .par pr.1 :: scanPath pr.2 := by
  rw [scanPath.eq_def]
  split
  · rename_i h2
    simp at h2
  · rename_i rest2 h2
    injection h2 with _ h3
    subst h3
    split
    · rename_i pr2 hp2
      rw [h] at hp2
      cases hp2
      rfl
    · rename_i hp2
      rw [h] at hp2
      cases hp2
  · rename_i c2 rest2 hne h2
    injection h2 with h3 _
    exact (hne h3.symm).elim

theorem scanPath_colon_lit (rest : List Char)
    (h : tryParam rest = none) :
    scanPath (':' :: rest) = .lit ':' :: scanPath rest := by
  rw [scanPath.eq_def]
  split
  · rename_i h2
    simp at h2
  · rename_i rest2 h2
    injection h2 with _ h3
    subst h3
    split
    · rename_i pr2 hp2
      rw [h] at hp2
      cases hp2
    · rfl
  · rename_i c2 rest2 hne h2
    injection h2 with h3 _
    exact (hne h3.symm).elim

theorem scanPath_lit (c : Char) (rest : List Char) (h : c ≠ ':') :
    scanPath (c :: rest) = .lit c :: scanPath rest := by
  rw [scanPath.eq_def]
  split
  · rename_i h2
    simp at h2
  · rename_i rest2 h2
    injection h2 with h3 _
    exact absurd h3 h
  · rename_i c2 rest2 hne h2
    injection h2 with h3 h4
    subst h3
    subst h4
    rfl

def lbrace : Char := '\x7b'
def rbrace : Char := '\x7d'

/-- Render the scanned tokens back to characters, each parameter occurrence
replaced by `\x7bname\x7d` (the `"\x7b$1\x7d"` replacement template). -/
def renderToks : List PathTok → List Char
  | [] => []
  | .lit c :: rest => c :: renderToks rest
  | .par p :: rest => lbrace :: (p.name.data ++ (rbrace :: renderToks rest))

/-- `path.replace(/:([a-zA-Z0-9_]+)(?:\((?:\\\)|[^)])+\))?/g, "\x7b$1\x7d")`
(source line 441): the translated OpenAPI path. -/
def oaPathOf (p : String) : String := String.mk (renderToks (scanPath p.data))

/-- The parameter occurrences extracted by the `exec` loop (lines 448-464),
in order. -/
def pathParams (p : String) : List PathParam :=
  (scanPath p.data).filterMap fun t =>
    match t with
    | .par pp => some pp
    | .lit _ => none

/-- A single non-dependent unfolding equation for `scanPath`, convenient for
rewriting. -/
theorem scanPath_cons (c : Char) (rest : List Char) :
    scanPath (c :: rest) =
      if c = ':' then
        match tryParam rest with
        | some pr => .par pr.1 :: scanPath pr.2
        | none => .lit ':' :: scanPath rest
      else .lit c :: scanPath rest := by
  by_cases hc : c = ':'
  · subst hc
    rw [if_pos rfl]
    cases hp : tryParam rest with
    | some pr => rw [scanPath_colon_param rest pr hp]
    | none => rw [scanPath_colon_lit rest hp]
  · rw [if_neg hc, scanPath_lit c rest hc]

/-- JS `String.prototype.split` with the one-character separator `'|'`
(`pattern.split('|')` on line 459). -/
def splitPipe : List Char → List (List Char)
  | [] => [[]]
  | c :: rest =>
    match splitPipe rest with
    | [] => []
    | g :: gs => if c = '|' then [] :: g :: gs else (c :: g) :: gs

def jsSplitPipe (s : String) : List String := (splitPipe s.data).map String.mk

/-- Parameter schemas as synthesized on lines 457-462. -/
inductive ParamSchema where
  | plain
  | enum (values : List String)
  | pat (p : String)
deriving DecidableEq, Repr

/-- An OpenAPI parameter object; `location` is the OpenAPI `in` field. -/
structure ParameterObject where
  name : String
  location : String
  required : Bool
  schema : ParamSchema
deriving DecidableEq, Repr

/-- Lines 452-463: build the parameter object for one occurrence.  A present
pattern matching `^[a-zA-Z0-9_|]+$` yields an enum of its pipe-split values,
any other pattern is kept verbatim as a string `pattern` constraint, no
pattern yields a plain string schema; always `in: "path"`, `required:
true`. -/
def toParameterObject (p : PathParam) : ParameterObject :=
  { name := p.name
    location := "path"
    required := true
    schema :=
      match p.pat with
      | none => .plain
      | some pat => if enumPatternMatch pat then .enum (jsSplitPipe pat) else .pat pat }

/-! ### Route resolution (`registerControllers`, source lines 330-372) -/

/-- A bound handler: the controller's identifier and the method name
(`controller[handlerName].bind(controller)`). -/
abbrev HandlerRef := Nat × String

/-- One element of the returned `RegisteredControllerInfo` list. -/
structure RouteRecord where
  method : HttpMethod
  path : String
  middlewares : List Nat
  handler : HandlerRef
deriving DecidableEq, Repr

/-- A controller instance: an identifier and its class's annotation store
(`none` models a constructor without `Symbol.metadata`). -/
structure Controller where
  id : Nat
  md : Option Metadata
deriving Repr

/-- The method-site entries of the path map, in iteration order, the
`CLASS_METADATA` sentinel skipped. -/
def methodPathEntries (md : Metadata) : List (String × List String) :=
  md.pathMap.filterMap fun p =>
    match p.1 with
    | .cls => none
    | .method n => some (n, p.2)

/-- `registerControllers` (lines 330-372): for every controller with
metadata and a nonempty path map, walk the method sites in map order, and
for each class path (outer) and method path (inner) emit one record with
plain string concatenation of the two paths, method-level HTTP method
falling back to class-level falling back to `GET`, and class middlewares
preceding method middlewares.  Every record is also registered on the
registrar, in this order; the registrar raises nothing here. -/
def registerControllers (cs : List Controller) : List RouteRecord :=
  cs.flatMap fun c =>
    match c.md with
    | none => []
    | some md =>
      if md.pathMap.isEmpty then []
      else
        let classPaths := (lookupA Site.cls md.pathMap).getD [""]
        let classMethod := (lookupA Site.cls md.methodMap).getD .GET
        let classMws := (lookupA Site.cls md.middlewareMap).getD []
        (methodPathEntries md).flatMap fun (n, methodPaths) =>
          classPaths.flatMap fun classPath =>
            methodPaths.map fun methodPath =>
              { method := (lookupA (Site.method n) md.methodMap).getD classMethod
                path := classPath ++ methodPath
                middlewares := classMws ++ (lookupA (Site.method n) md.middlewareMap).getD []
                handler := (c.id, n) }

/-! ### Document synthesis (`getOpenAPISchema`, source lines 401-555) -/

/-- A synthesized response entry (`oaResponses[codeStr]`, lines 524-529). -/
structure OAResponse where
  description : String
  content : Option ContentMap
  headers : Option HeadersMeta
deriving DecidableEq, Repr

/-- The built-in `defaultResponses` table (source lines 636-705), keyed by
the stringified status code. -/
structure DefaultResp where
  description : String
  content : Option ContentMap
deriving DecidableEq, Repr

def defaultResponses (code : String) : Option DefaultResp :=
  if code = "200" then
    some ⟨"Successful request", some [("text/plain", .withSchema .strTy)]⟩
  else if code = "204" then
    some ⟨"Successful request, no content to return", none⟩
  else if code = "400" then
    some ⟨"Bad request", some [("text/plain", .withSchema (.strTyEx "Bad Request"))]⟩
  else if code = "401" then
    some ⟨"Unauthorized", some [("text/plain", .withSchema (.strTyEx "Unauthorized"))]⟩
  else if code = "403" then
    some ⟨"Forbidden", some [("text/plain", .withSchema (.strTyEx "Forbidden"))]⟩
  else if code = "404" then
    some ⟨"Not found", some [("text/plain", .withSchema (.strTyEx "Not Found"))]⟩
  else if code = "500" then
    some ⟨"Internal server error", some [("text/plain", .withSchema (.strTyEx "Internal Server Error"))]⟩
  else none

/-- The JS TypeError message raised by `'content' in defaultResponses[codeStr]`
when the table has no entry for the code (`defaultResponses[codeStr]` is
`undefined` and `in` rejects non-objects). -/
def inUndefinedMsg : String :=
  "Cannot use \x27in\x27 operator to search for \x27content\x27 in undefined"

/-- Resolve the entries of a content map: string values become
`\x7bschema: nameToSchemaRef(value)\x7d` media objects (lines 517-522). -/
def resolveContentMap (m : ContentMap) : ContentMap :=
  m.map fun p =>
    match p.2 with
    | .strRef s => (p.1, .withSchema (.refTo (nameToSchemaRef s)))
    | .withSchema s => (p.1, .withSchema s)

/-- Lines 503-529: turn one response tuple into its response entry.  An
absent `content` falls back to the built-in default's content — evaluating
`'content' in defaultResponses[codeStr]`, which throws a TypeError when the
code has no default; a string content becomes the `application/json` schema
reference; the description falls back to the default's description and then
to the literal `"Response"`. -/
def resolveTupleEntry (t : ResponseMeta) : Except String OAResponse := do
  let codeStr := toString t.code
  let userContent : Option ContentMeta ←
    match t.content with
    | some c => pure (some c)
    | none =>
      match defaultResponses codeStr with
      | none => throw inUndefinedMsg
      | some d => pure (d.content.map ContentMeta.map)
  let resolved : Option ContentMap :=
    match userContent with
    | none => none
    | some (.str s) => some [("application/json", .withSchema (.refTo (nameToSchemaRef s)))]
    | some (.map m) => some (resolveContentMap m)
  return { description := t.description.getD (((defaultResponses codeStr).map (·.description)).getD "Response")
           content := resolved
           headers := t.headers }

/-- The response loop (lines 502-531): each tuple's entry is stored under
its stringified code, a later tuple's entry overwriting the whole entry
stored for that code. -/
def buildResponsesGo (acc : List (String × OAResponse)) :
    List ResponseMeta → Except String (List (String × OAResponse))
  | [] => .ok acc
  | t :: rest =>
    match resolveTupleEntry t with
    | .error e => .error e
    | .ok entry => buildResponsesGo (setA (toString t.code) entry acc) rest

def buildResponses (ts : List ResponseMeta) : Except String (List (String × OAResponse)) :=
  buildResponsesGo [] ts

/-- `[...new Set([...a, ...b])]`: deduplication keeping first occurrences. -/
def dedupFirst (l : List String) : List String :=
  go [] l
where
  go (seen : List String) : List String → List String
    | [] => []
    | x :: xs => if x ∈ seen then go seen xs else x :: go (x :: seen) xs

/-- Lines 489-498: a string request body is wrapped as a required
`application/json` schema reference, an object is used verbatim. -/
def resolveRequestBody : RequestBodyMeta → RBObject
  | .str s => { content := [("application/json", .withSchema (.refTo (nameToSchemaRef s)))], required := some true }
  | .obj o => o

/-- A synthesized operation object. -/
structure Operation where
  tags : Option (List String) := none
  summary : Option String := none
  description : Option String := none
  operationId : Option String := none
  requestBody : Option RBObject := none
  responses : Option (List (String × OAResponse)) := none
deriving DecidableEq, Repr

/-- A path item: the derived path-scoped parameters and the operations keyed
by lower-cased HTTP method. -/
structure PathItem where
  parameters : Option (List ParameterObject) := none
  ops : List (String × Operation) := []
deriving DecidableEq, Repr

/-- The synthesized document.  `components` and the schema-generation step
(`componentsPattern`) delegate to the external generator collaborator and
are modelled separately (`processSchema`); `info` and the other top-level
fields of the base document pass through `structuredClone` untouched. -/
structure OpenAPIDoc where
  paths : Option (List (String × PathItem)) := none
deriving DecidableEq, Repr

/-- JS `value || falsy` guards on strings: an empty string is falsy
(`if (summary) ...`). -/
def truthyStr : Option String → Option String
  | some s => if s = "" then none else some s
  | none => none

/-- Lines 475-533 without the response loop: assemble the operation object
for one handler site. -/
def buildOperation (md : Metadata) (n : String) (classTags : List String)
    (classRB : Option RequestBodyMeta) (classResponses : List ResponseMeta) :
    Except String Operation := do
  let site := Site.method n
  let tags := dedupFirst (classTags ++ (lookupA site md.tagMap).getD [])
  let rb :=
    match lookupA site md.requestBodyMap with
    | some r => some (resolveRequestBody r)
    | none => classRB.map resolveRequestBody
  let responses := classResponses ++ (lookupA site md.responseMap).getD []
  let respOpt : Option (List (String × OAResponse)) ←
    if responses.isEmpty then pure none
    else do
      let r ← buildResponses responses
      pure (some r)
  return { tags := if tags.isEmpty then none else some tags
           summary := truthyStr (lookupA site md.summaryMap)
           description := truthyStr (lookupA site md.descriptionMap)
           operationId :=
             match truthyStr (lookupA site md.operationIdMap) with
             | some o => some o
             | none => some n
           requestBody := rb
           responses := respOpt }

/-- Lines 437-533: process one (handler, classPath, methodPath) triple
against the paths object.  A translated path not yet present gets a fresh
path item carrying the derived parameters (only if nonempty); a duplicate
(translated path, lower-cased method) pair raises the duplicate-path
error. -/
def synthStep (md : Metadata) (classMethod : HttpMethod) (classTags : List String)
    (classRB : Option RequestBodyMeta) (classResponses : List ResponseMeta)
    (paths : List (String × PathItem)) (n : String) (cp mp : String) :
    Except String (List (String × PathItem)) := do
  let path := cp ++ mp
  let meth := ((lookupA (Site.method n) md.methodMap).getD classMethod).lower
  let oaPath := oaPathOf path
  let (paths1, item) :=
    match lookupA oaPath paths with
    | some it => (paths, it)
    | none =>
      let params := (pathParams path).map toParameterObject
      let it : PathItem := { parameters := if params.isEmpty then none else some params, ops := [] }
      (setA oaPath it paths, it)
  if (lookupA meth item.ops).isSome then
    throw ("Duplicate path definition found for \x27" ++ meth ++ " " ++ oaPath ++ "\x27")
  else do
    let op ← buildOperation md n classTags classRB classResponses
    return setA oaPath { item with ops := setA meth op item.ops } paths1

/-- The per-controller loop of `getOpenAPISchema` (lines 413-537). -/
def synthController (paths : List (String × PathItem)) (c : Controller) :
    Except String (List (String × PathItem)) :=
  match c.md with
  | none => .ok paths
  | some md =>
    if md.pathMap.isEmpty then .ok paths
    else
      let classPaths := (lookupA Site.cls md.pathMap).getD [""]
      let classMethod := (lookupA Site.cls md.methodMap).getD .GET
      let classTags := (lookupA Site.cls md.tagMap).getD []
      let classRB := lookupA Site.cls md.requestBodyMap
      let classResponses := (lookupA Site.cls md.responseMap).getD []
      let steps := (methodPathEntries md).flatMap fun (n, mps) =>
        classPaths.flatMap fun cp => mps.map fun mp => (n, cp, mp)
      steps.foldlM
        (fun ps s => synthStep md classMethod classTags classRB classResponses ps s.1 s.2.1 s.2.2)
        paths

/-- `getOpenAPISchema` (lines 401-555) with no `componentsPattern`: deep-copy
the base document (`structuredClone`; values are pure here, aliasing is
studied in the heap model below), default `paths` to `\x7b\x7d`, then fold
every controller's operations into it. -/
def getOpenAPISchema (base : OpenAPIDoc) (cs : List Controller) : Except String OpenAPIDoc := do
  let paths0 := base.paths.getD []
  let paths ← cs.foldlM synthController paths0
  return { base with paths := some paths }

/-! ### Schema aggregation (`generateSchemaDefinitions`, source lines 573-634)

The external `ts-json-schema-generator` collaborator produces a JSON schema
with an optional `definitions` table; the in-scope part is the
post-processing pass `fixSchema` plus the `definitions`/`$schema` removal.
JSON documents are modelled by `JVal` (numbers as integers; no claim
involves floats).

`fixSchema` mutates in place and substitutes definition objects by
reference; the walk also covers the `definitions` subtree itself, so a
substituted definition body is the same object that the table walk fixes,
and the converged object graph (for acyclic schemas) is captured by the pure
`fixNode` below, where a substituted body is itself fixed.  When a
definition's body is at its root an internal `$ref` node, the source's
outcome depends on object key iteration order (the table slot is replaced
when the table walk reaches it, while occurrences substituted earlier keep
the raw reference node); the theorems below exclude that corner through
their hypotheses, and `fixNode` resolves such a body one step further
(matching the order in which the table is walked first). -/

inductive JVal where
  | null
  | bool (b : Bool)
  | num (n : Int)
  | str (s : String)
  | arr (xs : List JVal)
  | obj (fields : List (String × JVal))
deriving Repr

theorem lookupA_mem {α β : Type} [DecidableEq α] {k : α} {v : β} {l : List (α × β)}
    (h : lookupA k l = some v) : (k, v) ∈ l := by
  induction l with
  | nil => simp [lookupA] at h
  | cons p rest ih =>
    obtain ⟨k', v'⟩ := p
    simp only [lookupA] at h
    split at h
    · cases h
      rename_i he
      subst he
      exact List.mem_cons_self _ _
    · exact List.mem_cons_of_mem _ (ih h)

theorem lookupA_sizeOf_lt {α β : Type} [DecidableEq α] [SizeOf α] [SizeOf β]
    {k : α} {v : β} {l : List (α × β)}
    (h : lookupA k l = some v) : sizeOf v < sizeOf l := by
  have h1 := List.sizeOf_lt_of_mem (lookupA_mem h)
  have h2 : sizeOf (k, v) = 1 + sizeOf k + sizeOf v := rfl
  omega

def defsPrefix : String := "#/definitions/"

/-- `target.$ref?.startsWith?.('#/definitions/')` plus the name extraction
`target.$ref.replace('#/definitions/', '')` (the prefix occurs at index 0,
so `replace` drops it). -/
def refNameOf (fields : List (String × JVal)) : Option String :=
  match lookupA "$ref" fields with
  | some (.str s) => if s.startsWith defsPrefix then some (s.drop defsPrefix.length) else none
  | _ => none

/-- Remove every binding of a key (JS object keys are unique, so this is
`delete obj[k]`). -/
def removeF (k : String) (fields : List (String × JVal)) : List (String × JVal) :=
  fields.filter fun p => p.1 ≠ k

/-- `fixNode defs fuel v` is `fixSchema` seen from a child position: an
internal reference node is replaced by the (fixed) definition body; any
other object node has its single-constant restriction rewritten to a
one-value enumeration (`target.enum = [target.const]; delete target.const`,
the rewritten `enum` array being walked as well) and its children fixed;
arrays have their elements fixed; primitives pass through.  `fuel` bounds the
chain of reference substitutions (the source would loop forever on a cyclic
reference chain; an unresolvable or fuel-starved reference yields `null`
here — the source stores `undefined` — and is excluded by the theorems'
hypotheses). -/
def fixNode (defs : List (String × JVal)) : Nat → JVal → JVal
  | fuel, .obj fields =>
    match refNameOf fields with
    | some n =>
      match fuel, lookupA n defs with
      | f + 1, some body => fixNode defs f body
      | _, _ => .null
    | none =>
      let fixed := fields.attach.map fun x => (x.1.1, fixNode defs fuel x.1.2)
      match hc : lookupA "const" fields with
      | none => .obj fixed
      | some c => .obj (removeF "const" (setA "enum" (.arr [fixNode defs fuel c]) fixed))
  | fuel, .arr xs => .arr (xs.attach.map fun x => fixNode defs fuel x.1)
  | _, v => v
termination_by fuel v => (fuel, sizeOf v)
decreasing_by
  · exact Prod.Lex.left _ _ (by omega)
  · apply Prod.Lex.right
    have h1 : sizeOf x.1 < sizeOf fields := List.sizeOf_lt_of_mem x.2
    have h2 : sizeOf x.1 = 1 + sizeOf x.1.1 + sizeOf x.1.2 := rfl
    have h3 : sizeOf (JVal.obj fields) = 1 + sizeOf fields := by simp
    omega
  · apply Prod.Lex.right
    have h1 : sizeOf c < sizeOf fields := lookupA_sizeOf_lt (by assumption)
    have h3 : sizeOf (JVal.obj fields) = 1 + sizeOf fields := by simp
    omega
  · apply Prod.Lex.right
    have h1 : sizeOf x.1 < sizeOf xs := List.sizeOf_lt_of_mem x.2
    have h3 : sizeOf (JVal.arr xs) = 1 + sizeOf xs := by simp
    omega

/-- No node in the value (the value itself included) carries a single-constant
restriction (`const` field) or is an internal `#/definitions/` reference:
the shape the fix pass is meant to establish everywhere below the root. -/
def cleanB : JVal → Bool
  | .obj fields =>
    (refNameOf fields).isNone && (lookupA "const" fields).isNone
      && fields.attach.all fun x => cleanB x.1.2
  | .arr xs => xs.attach.all fun x => cleanB x.1
  | _ => true
termination_by v => sizeOf v
decreasing_by
  · have h1 : sizeOf x.1 < sizeOf fields := List.sizeOf_lt_of_mem x.2
    have h2 : sizeOf x.1 = 1 + sizeOf x.1.1 + sizeOf x.1.2 := rfl
    have h3 : sizeOf (JVal.obj fields) = 1 + sizeOf fields := by simp
    omega
  · have h1 : sizeOf x.1 < sizeOf xs := List.sizeOf_lt_of_mem x.2
    have h3 : sizeOf (JVal.arr xs) = 1 + sizeOf xs := by simp
    omega

/-- The internal-reference names a walk of the value can substitute: a
reference node contributes its own name (its other fields are never
walked), any other node the union over its children (the `const` value is
kept because the rewritten `enum` array is walked). -/
def refsOf : JVal → List String
  | .obj fields =>
    match refNameOf fields with
    | some n => [n]
    | none => fields.attach.flatMap fun x => refsOf x.1.2
  | .arr xs => xs.attach.flatMap fun x => refsOf x.1
  | _ => []
termination_by v => sizeOf v
decreasing_by
  · have h1 : sizeOf x.1 < sizeOf fields := List.sizeOf_lt_of_mem x.2
    have h2 : sizeOf x.1 = 1 + sizeOf x.1.1 + sizeOf x.1.2 := rfl
    have h3 : sizeOf (JVal.obj fields) = 1 + sizeOf fields := by simp
    omega
  · have h1 : sizeOf x.1 < sizeOf xs := List.sizeOf_lt_of_mem x.2
    have h3 : sizeOf (JVal.arr xs) = 1 + sizeOf xs := by simp
    omega

/-- Every `$ref` field anywhere holds a string value — the only shape the
schema generator emits.  Keeps the substitution pass from manufacturing new
reference nodes out of non-string `$ref` members. -/
def refStrB : JVal → Bool
  | .obj fields =>
    (match lookupA "$ref" fields with
     | none => true
     | some (.str _) => true
     | some _ => false)
      && fields.attach.all fun x => refStrB x.1.2
  | .arr xs => xs.attach.all fun x => refStrB x.1
  | _ => true
termination_by v => sizeOf v
decreasing_by
  · have h1 : sizeOf x.1 < sizeOf fields := List.sizeOf_lt_of_mem x.2
    have h2 : sizeOf x.1 = 1 + sizeOf x.1.1 + sizeOf x.1.2 := rfl
    have h3 : sizeOf (JVal.obj fields) = 1 + sizeOf fields := by simp
    omega
  · have h1 : sizeOf x.1 < sizeOf xs := List.sizeOf_lt_of_mem x.2
    have h3 : sizeOf (JVal.arr xs) = 1 + sizeOf xs := by simp
    omega

/-- Wellformedness of a definitions table, under which the in-place,
aliasing `fixSchema` run converges to `fixNode`: no definition body is at
its root an internal reference (there the source's outcome depends on the
object's key iteration order), every reference inside a body resolves, a
rank function decreases across references (ruling out the cycles on which
the source would not terminate), and `$ref` members hold strings. -/
def DefsWF (defs : List (String × JVal)) (rank : String → Nat) : Prop :=
  ∀ n b, lookupA n defs = some b →
    (∀ fs, b = JVal.obj fs → refNameOf fs = none)
    ∧ refStrB b = true
    ∧ ∀ m ∈ refsOf b, (∃ b2, lookupA m defs = some b2) ∧ rank m < rank n

/-- JS truthiness of a JSON value (`if (schema.definitions)`). -/
def jTruthy : JVal → Bool
  | .null => false
  | .bool b => b
  | .num n => n != 0
  | .str s => s ≠ ""
  | .arr _ => true
  | .obj _ => true

/-- The definitions table of a JSON value (`defs[name]` lookups on a
non-object yield `undefined`, i.e. an empty table). -/
def defsTableOf : JVal → List (String × JVal)
  | .obj fields => fields
  | _ => []

/-- The top-level `fixSchema(schema, defs)` call walks the root's children
(the root object itself is never rewritten or substituted). -/
def fixRoot (defs : List (String × JVal)) (fuel : Nat) : JVal → JVal
  | .obj fields => .obj (fields.map fun p => (p.1, fixNode defs fuel p.2))
  | .arr xs => .arr (xs.map (fixNode defs fuel))
  | v => v

/-- Lines 624-630: if the generated schema has a truthy `definitions`
member, run `fixSchema` over the schema against that table and delete the
member; then delete `$schema`. -/
def processSchema (fuel : Nat) (schema : JVal) : JVal :=
  match schema with
  | .obj fields =>
    let afterFix :=
      match lookupA "definitions" fields with
      | some d =>
        if jTruthy d then
          removeF "definitions"
            (match fixRoot (defsTableOf d) fuel (.obj fields) with
             | .obj fs => fs
             | _ => fields)
        else fields
      | none => fields
    .obj (removeF "$schema" afterFix)
  | v => v

/-! ### A heap model for `structuredClone` (source line 408)

`getOpenAPISchema` starts with `const openapi = structuredClone(baseOpenAPISchema)`
and from then on writes only to `openapi` (paths and components are created
or extended on the clone; the base document object is never written again).
The deep-copy/no-aliasing property of the returned document is a statement
about object identity, so it is modelled on an explicit heap: nodes are JSON
objects/arrays holding addresses of their children, `structuredClone`
allocates fresh addresses for the whole reachable subgraph, and a mutation is
an in-place replacement of one node.  Cyclic graphs (which `structuredClone`
supports via a memo table) are out of scope: the clone carries a fuel bound
and the theorem assumes it suffices. -/

/-- A heap node: a JSON object (field name to child address), an array of
child addresses, or a primitive leaf (its value is irrelevant here). -/
inductive HNode where
  | hobj (fields : List (String × Nat))
  | harr (elems : List Nat)
  | hprim (tag : String)
deriving DecidableEq, Repr

abbrev Heap := List (Nat × HNode)

def lookupH (a : Nat) (h : Heap) : Option HNode := lookupA a h

/-- The child addresses of a node. -/
def childAddrs : HNode → List Nat
  | .hobj fields => fields.map (·.2)
  | .harr elems => elems
  | .hprim _ => []

/-- An upper bound on the addresses used by a heap. -/
def maxAddr (h : Heap) : Nat := h.foldr (fun p m => max p.1 m) 0

/-- In-place mutation of the node stored at address `b`. -/
def updateH (b : Nat) (n : HNode) (h : Heap) : Heap :=
  h.map fun p => if p.1 = b then (p.1, n) else p

/-- Every child address of every node is itself allocated. -/
def ClosedHeap (h : Heap) : Prop :=
  ∀ a n, lookupH a h = some n → ∀ b ∈ childAddrs n, (lookupH b h).isSome

/-- Reachability along child links. -/
inductive Reaches (h : Heap) (a : Nat) : Nat → Prop where
  | refl : Reaches h a a
  | step {b c : Nat} {n : HNode} : Reaches h a b → lookupH b h = some n →
      c ∈ childAddrs n → Reaches h a c

mutual

/-- Clone the subgraph rooted at `a`, allocating fresh addresses from `nf`
upward; returns the new entries, the clone's root address and the next free
address. -/
def cloneGo (h : Heap) : Nat → Nat → Nat → Option (Heap × Nat × Nat)
  | 0, _, _ => none
  | fuel + 1, a, nf =>
    match lookupH a h with
    | none => none
    | some (.hprim t) => some ([(nf, .hprim t)], nf, nf + 1)
    | some (.harr elems) =>
      match cloneList h fuel elems nf with
      | none => none
      | some (es, roots, nf') => some (es ++ [(nf', .harr roots)], nf', nf' + 1)
    | some (.hobj fields) =>
      match cloneList h fuel (fields.map (·.2)) nf with
      | none => none
      | some (es, roots, nf') =>
        some (es ++ [(nf', .hobj ((fields.map (·.1)).zip roots))], nf', nf' + 1)

/-- Clone a list of roots in order, threading the allocator. -/
def cloneList (h : Heap) : Nat → List Nat → Nat → Option (Heap × List Nat × Nat)
  | _, [], nf => some ([], [], nf)
  | fuel, a :: rest, nf =>
    match cloneGo h fuel a nf with
    | none => none
    | some (es, r, nf') =>
      match cloneList h fuel rest nf' with
      | none => none
      | some (es2, rs, nf'') => some (es ++ es2, r :: rs, nf'')

end

/-- `structuredClone(base)`: clone the graph under root `a` into fresh
addresses above every existing one, returning the extended heap and the
clone's root. -/
def structuredCloneH (h : Heap) (fuel : Nat) (a : Nat) : Option (Heap × Nat) :=
  match cloneGo h fuel a (maxAddr h + 1) with
  | none => none
  | some (es, r, _) => some (h ++ es, r)

/-! ## Theorems -/

/-! ### Shared association-list lemmas -/

theorem lookupA_setA_self {α β : Type} [DecidableEq α] (k : α) (v : β) (l : List (α × β)) :
    lookupA k (setA k v l) = some v := by
  induction l with
  | nil => simp [setA, lookupA]
  | cons p rest ih =>
    obtain ⟨k', v'⟩ := p
    by_cases hk : k' = k
    · simp [setA, hk, lookupA]
    · simp [setA, hk, lookupA, ih]

theorem lookupA_setA_ne {α β : Type} [DecidableEq α] {k k' : α} (v : β) (l : List (α × β))
    (h : k' ≠ k) : lookupA k (setA k' v l) = lookupA k l := by
  induction l with
  | nil => simp [setA, lookupA, h]
  | cons p rest ih =>
    obtain ⟨k'', v'⟩ := p
    by_cases hk : k'' = k'
    · subst hk
      simp [setA, lookupA, h, ih]
    · simp [setA, hk, lookupA, ih]

theorem lookupA_append {α β : Type} [DecidableEq α] (k : α) (l1 l2 : List (α × β)) :
    lookupA k (l1 ++ l2) =
      match lookupA k l1 with
      | some v => some v
      | none => lookupA k l2 := by
  induction l1 with
  | nil => simp [lookupA]
  | cons p rest ih =>
    obtain ⟨k', v'⟩ := p
    by_cases hk : k' = k
    · simp [lookupA, hk]
    · simp [lookupA, hk, ih]

theorem lookupA_appendAt_self {α : Type} (s : Site) (vs : List α) (l : List (Site × List α)) :
    lookupA s (appendAt s vs l) = some ((lookupA s l).getD [] ++ vs) := by
  unfold appendAt
  cases h : lookupA s l with
  | some old => simp [lookupA_setA_self]
  | none => simp [lookupA_append, h, lookupA]

/-! ### C7: duplicate single-valued annotations fail, multi-valued accumulate -/

/-- C7.  Applying any of the single-valued annotations (`@method`,
`@summary`, `@description`, `@operationId`, `@requestBody`) twice to the
same declaration site fails with the duplicate-annotation error, while
applying any of the multi-valued annotations (`@path`, `@middleware`,
`@tag`, `@response`) twice to the same site accumulates both values in
application order. -/
theorem duplicate_annotation_semantics (md : Metadata) (nm : String)
    (m1 m2 : HttpMethod) (s1 s2 d1 d2 o1 o2 : String) (rb1 rb2 : RequestBodyMeta)
    (p1 p2 t1 t2 : String) (w1 w2 : Nat) (r1 r2 : ResponseMeta)
    (hM : lookupA (Site.method nm) md.methodMap = none)
    (hS : lookupA (Site.method nm) md.summaryMap = none)
    (hD : lookupA (Site.method nm) md.descriptionMap = none)
    (hO : lookupA (Site.method nm) md.operationIdMap = none)
    (hR : lookupA (Site.method nm) md.requestBodyMap = none) :
    ((applyMethod (Site.method nm) m1 md).bind (applyMethod (Site.method nm) m2) = .error dupMsg)
    ∧ ((applySummary (Site.method nm) s1 md).bind (applySummary (Site.method nm) s2) = .error dupMsg)
    ∧ ((applyDescription (Site.method nm) d1 md).bind (applyDescription (Site.method nm) d2) = .error dupMsg)
    ∧ ((applyOperationId (Site.method nm) o1 md).bind (applyOperationId (Site.method nm) o2) = .error dupMsg)
    ∧ ((applyRequestBody (Site.method nm) rb1 md).bind (applyRequestBody (Site.method nm) rb2) = .error dupMsg)
    ∧ (lookupA (Site.method nm) (applyPath (Site.method nm) p2 (applyPath (Site.method nm) p1 md)).pathMap
        = some ((lookupA (Site.method nm) md.pathMap).getD [] ++ [p1, p2]))
    ∧ (lookupA (Site.method nm) (applyMiddleware (Site.method nm) [w2] (applyMiddleware (Site.method nm) [w1] md)).middlewareMap
        = some ((lookupA (Site.method nm) md.middlewareMap).getD [] ++ [w1, w2]))
    ∧ (lookupA (Site.method nm) (applyTag (Site.method nm) [t2] (applyTag (Site.method nm) [t1] md)).tagMap
        = some ((lookupA (Site.method nm) md.tagMap).getD [] ++ [t1, t2]))
    ∧ (lookupA (Site.method nm) (applyResponse (Site.method nm) r2 (applyResponse (Site.method nm) r1 md)).responseMap
        = some ((lookupA (Site.method nm) md.responseMap).getD [] ++ [r1, r2])) := by
  refine ⟨?_, ?_, ?_, ?_, ?_, ?_, ?_, ?_, ?_⟩
  · simp [applyMethod, hM, Except.bind, lookupA_append, lookupA]
  · simp [applySummary, hS, Except.bind, lookupA_append, lookupA]
  · simp [applyDescription, hD, Except.bind, lookupA_append, lookupA]
  · simp [applyOperationId, hO, Except.bind, lookupA_append, lookupA]
  · simp [applyRequestBody, hR, Except.bind, lookupA_append, lookupA]
  · simp [applyPath, lookupA_appendAt_self]
  · simp [applyMiddleware, lookupA_appendAt_self]
  · simp [applyTag, lookupA_appendAt_self]
  · simp [applyResponse, lookupA_appendAt_self]

/-- C7's witness at a concrete site and empty store. -/
theorem duplicate_annotation_semantics_witness :
    ((applyMethod (Site.method "h") .GET {}).bind (applyMethod (Site.method "h") .POST) = .error dupMsg)
    ∧ ((applySummary (Site.method "h") "a" {}).bind (applySummary (Site.method "h") "b") = .error dupMsg)
    ∧ ((applyDescription (Site.method "h") "a" {}).bind (applyDescription (Site.method "h") "b") = .error dupMsg)
    ∧ ((applyOperationId (Site.method "h") "a" {}).bind (applyOperationId (Site.method "h") "b") = .error dupMsg)
    ∧ ((applyRequestBody (Site.method "h") (.str "A") {}).bind (applyRequestBody (Site.method "h") (.str "B")) = .error dupMsg)
    ∧ (lookupA (Site.method "h") (applyPath (Site.method "h") "/b" (applyPath (Site.method "h") "/a" {})).pathMap
        = some ((lookupA (Site.method "h") (Metadata.pathMap {})).getD [] ++ ["/a", "/b"]))
    ∧ (lookupA (Site.method "h") (applyMiddleware (Site.method "h") [2] (applyMiddleware (Site.method "h") [1] {})).middlewareMap
        = some ((lookupA (Site.method "h") (Metadata.middlewareMap {})).getD [] ++ [1, 2]))
    ∧ (lookupA (Site.method "h") (applyTag (Site.method "h") ["u"] (applyTag (Site.method "h") ["t"] {})).tagMap
        = some ((lookupA (Site.method "h") (Metadata.tagMap {})).getD [] ++ ["t", "u"]))
    ∧ (lookupA (Site.method "h") (applyResponse (Site.method "h") { code := 201 } (applyResponse (Site.method "h") { code := 200 } {})).responseMap
        = some ((lookupA (Site.method "h") (Metadata.responseMap {})).getD [] ++ [{ code := 200 }, { code := 201 }])) :=
  duplicate_annotation_semantics {} "h" .GET .POST "a" "b" "a" "b" "a" "b"
    (.str "A") (.str "B") "/a" "/b" "t" "u" 1 2 { code := 200 } { code := 201 }
    rfl rfl rfl rfl rfl

/-! ### C3: route resolution count and concatenation -/

theorem length_flatMap_const {α β : Type} (l : List α) (f : α → List β) (c : Nat)
    (h : ∀ x ∈ l, (f x).length = c) : (l.flatMap f).length = l.length * c := by
  induction l with
  | nil => simp
  | cons x rest ih =>
    simp only [List.flatMap_cons, List.length_append, List.length_cons]
    rw [h x (List.mem_cons_self _ _), ih (fun y hy => h y (List.mem_cons_of_mem _ hy))]
    ring

/-- C3.  For a controller instance with at least one class-level path
segment, whose path-bearing methods each carry `k ≥ 1` method-level paths,
route resolution produces exactly `|class paths| * k * |path-bearing
methods|` records, and every record's path is the plain concatenation
`classPath ++ methodPath` with no separator inserted. -/
theorem route_resolution_count (c : Controller) (md : Metadata) (CP : List String) (k : Nat)
    (hmd : c.md = some md)
    (hCP : lookupA Site.cls md.pathMap = some CP)
    (hne : CP ≠ [])
    (hkpos : 0 < k)
    (hk : ∀ e ∈ methodPathEntries md, e.2.length = k) :
    (registerControllers [c]).length = CP.length * k * (methodPathEntries md).length
    ∧ ∀ r ∈ registerControllers [c], ∃ cp ∈ CP, ∃ e ∈ methodPathEntries md, ∃ mp ∈ e.2,
        r.path = cp ++ mp := by
  have hne' : md.pathMap.isEmpty = false := by
    cases hP : md.pathMap with
    | nil => rw [hP] at hCP; simp [lookupA] at hCP
    | cons a b => simp
  simp only [registerControllers, List.flatMap_cons, List.flatMap_nil, List.append_nil, hmd,
    hne', Bool.false_eq_true, if_false, hCP, Option.getD_some]
  constructor
  · rw [length_flatMap_const _ _ (CP.length * k)]
    · ring
    · intro e he
      apply length_flatMap_const
      intro cp _
      simp [hk e he]
  · intro r hr
    simp only [List.mem_flatMap, List.mem_map] at hr
    obtain ⟨e, he, cp, hcp, mp, hmp, hrec⟩ := hr
    exact ⟨cp, hcp, e, he, mp, hmp, by rw [← hrec]⟩

/-- C3's witness: two class paths, two path-bearing methods with two
method paths each produce eight records. -/
theorem route_resolution_count_witness :
    (registerControllers [⟨0, some { pathMap :=
        [(Site.cls, ["/v1", "/v2"]), (Site.method "a", ["/x", "/y"]), (Site.method "b", ["/z", "/w"])] }⟩]).length
      = 2 * 2 * 2
    ∧ ∀ r ∈ registerControllers [⟨0, some { pathMap :=
        [(Site.cls, ["/v1", "/v2"]), (Site.method "a", ["/x", "/y"]), (Site.method "b", ["/z", "/w"])] }⟩],
        ∃ cp ∈ ["/v1", "/v2"], ∃ e ∈ methodPathEntries { pathMap :=
          [(Site.cls, ["/v1", "/v2"]), (Site.method "a", ["/x", "/y"]), (Site.method "b", ["/z", "/w"])] },
          ∃ mp ∈ e.2, r.path = cp ++ mp := by
  have h := route_resolution_count
    ⟨0, some { pathMap := [(Site.cls, ["/v1", "/v2"]), (Site.method "a", ["/x", "/y"]), (Site.method "b", ["/z", "/w"])] }⟩
    { pathMap := [(Site.cls, ["/v1", "/v2"]), (Site.method "a", ["/x", "/y"]), (Site.method "b", ["/z", "/w"])] }
    ["/v1", "/v2"] 2 rfl rfl (by simp) (by omega)
    (by intro e he; fin_cases he <;> rfl)
  simpa using h

/-! ### C9: translation of parameter-free paths -/

theorem scanPath_no_params_render (l : List Char)
    (h : ∀ t ∈ scanPath l, ∃ c, t = PathTok.lit c) :
    renderToks (scanPath l) = l := by
  induction l using scanPath.induct with
  | case1 => simp [scanPath_nil, renderToks]
  | case2 rest pr hp ih =>
    rw [scanPath_colon_param rest pr hp] at h
    obtain ⟨c, hc⟩ := h _ (List.mem_cons_self _ _)
    cases hc
  | case3 rest hp ih =>
    rw [scanPath_colon_lit rest hp] at h ⊢
    simp only [renderToks]
    rw [ih]
    intro t ht
    exact h t (List.mem_cons_of_mem _ ht)
  | case4 c rest hc ih =>
    have hcn : c ≠ ':' := fun hh => hc hh
    rw [scanPath_lit c rest hcn] at h ⊢
    simp only [renderToks]
    rw [ih]
    intro t ht
    exact h t (List.mem_cons_of_mem _ ht)

/-- C9.  A path in which the translator finds no parameter occurrence is
returned unchanged, with an empty parameter list, and translation is
idempotent on it. -/
theorem translate_no_params_idempotent (p : String) (h : pathParams p = []) :
    oaPathOf p = p ∧ oaPathOf (oaPathOf p) = oaPathOf p ∧ pathParams (oaPathOf p) = [] := by
  have hall : ∀ t ∈ scanPath p.data, ∃ c, t = PathTok.lit c := by
    intro t ht
    have hnone := (List.filterMap_eq_nil.mp h) t ht
    cases t with
    | lit c => exact ⟨c, rfl⟩
    | par pp => simp at hnone
  have h1 : oaPathOf p = p := by
    unfold oaPathOf
    rw [scanPath_no_params_render _ hall]
  exact ⟨h1, by rw [h1]; exact h1, by rw [h1]; exact h⟩

/-- C9's witness at `"/users/all"`. -/
theorem translate_no_params_idempotent_witness :
    oaPathOf "/users/all" = "/users/all"
    ∧ oaPathOf (oaPathOf "/users/all") = oaPathOf "/users/all"
    ∧ pathParams (oaPathOf "/users/all") = [] :=
  translate_no_params_idempotent "/users/all"
    (by simp +decide [pathParams, scanPath_nil, scanPath_cons, tryParam, splitName, isWordChar])

/-! ### C5: the enumeration heuristic of derived parameter schemas -/

theorem enumPatternMatch_iff (s : String) :
    enumPatternMatch s = true ↔ s.data ≠ [] ∧ ∀ c ∈ s.data, isEnumChar c = true := by
  simp [enumPatternMatch, List.all_eq_true, List.isEmpty_iff]

/-- C5.  Every parameter descriptor derived by the translator is required
and located in the path, and its schema is an enumeration of the pattern's
pipe-split values exactly when the whole pattern consists of characters from
`[a-zA-Z0-9_|]` (and is nonempty); any other pattern is kept verbatim as a
string `pattern` constraint, and a parameter without a pattern gets the
plain string schema. -/
theorem translator_enum_heuristic (p : String) (prm : PathParam)
    (hmem : prm ∈ pathParams p) :
    toParameterObject prm =
      { name := prm.name
        location := "path"
        required := true
        schema :=
          match prm.pat with
          | none => .plain
          | some pat =>
            if pat.data ≠ [] ∧ ∀ c ∈ pat.data, isEnumChar c = true then .enum (jsSplitPipe pat)
            else .pat pat } := by
  obtain ⟨nm, pat⟩ := prm
  cases pat with
  | none => rfl
  | some pp =>
    simp only [toParameterObject, ParameterObject.mk.injEq, true_and]
    by_cases h : pp.data ≠ [] ∧ ∀ c ∈ pp.data, isEnumChar c = true
    · rw [if_pos ((enumPatternMatch_iff pp).mpr h), if_pos h]
    · rw [if_neg (fun hb => h ((enumPatternMatch_iff pp).mp hb)), if_neg h]

/-- C5's witness: the three spec examples `/users/:id`, `/x/:id([0-9]+)`
and `/x/:name(a|b|c)`. -/
theorem translator_enum_heuristic_witness :
    toParameterObject ⟨"name", some "a|b|c"⟩ =
      { name := "name", location := "path", required := true, schema := .enum ["a", "b", "c"] }
    ∧ toParameterObject ⟨"id", some "[0-9]+"⟩ =
      { name := "id", location := "path", required := true, schema := .pat "[0-9]+" }
    ∧ toParameterObject ⟨"id", none⟩ =
      { name := "id", location := "path", required := true, schema := .plain }
    ∧ pathParams "/x/:name(a|b|c)" = [⟨"name", some "a|b|c"⟩]
    ∧ oaPathOf "/x/:name(a|b|c)" = "/x/{name}" := by
  have hm1 : (⟨"name", some "a|b|c"⟩ : PathParam) ∈ pathParams "/x/:name(a|b|c)" := by
    simp +decide [pathParams, scanPath_nil, scanPath_cons, tryParam, splitName, isWordChar, constraintGo, lastCloseIdx, String.mk]
  have hm2 : (⟨"id", some "[0-9]+"⟩ : PathParam) ∈ pathParams "/x/:id([0-9]+)" := by
    simp +decide [pathParams, scanPath_nil, scanPath_cons, tryParam, splitName, isWordChar, constraintGo, lastCloseIdx, String.mk]
  have hm3 : (⟨"id", none⟩ : PathParam) ∈ pathParams "/users/:id" := by
    simp +decide [pathParams, scanPath_nil, scanPath_cons, tryParam, splitName, isWordChar, String.mk]
  have h1 := translator_enum_heuristic _ _ hm1
  have h2 := translator_enum_heuristic _ _ hm2
  have h3 := translator_enum_heuristic _ _ hm3
  refine ⟨?_, ?_, ?_, ?_, ?_⟩
  · rw [h1]
    simp +decide [ParameterObject.mk.injEq, jsSplitPipe, splitPipe]
  · rw [h2]
    simp +decide [ParameterObject.mk.injEq, jsSplitPipe, splitPipe]
  · rw [h3]
  · simp +decide [pathParams, scanPath_nil, scanPath_cons, tryParam, splitName, isWordChar, constraintGo, lastCloseIdx, String.mk]
  · simp +decide [oaPathOf, scanPath_nil, scanPath_cons, tryParam, splitName, isWordChar, constraintGo,
      lastCloseIdx, renderToks, lbrace, rbrace, String.mk]

/-! ### C1: response tuples with absent content and a non-default status code

The claim says synthesis produces a `"Response"`-described, content-free
entry and does not fail.  The source instead evaluates
`'content' in defaultResponses[codeStr]` (line 507) without optional
chaining: for a code outside the defaults table `defaultResponses[codeStr]`
is `undefined` and the `in` operator throws a TypeError, aborting synthesis.
The literal `"Response"` fallback and the optional chaining in
`defaultResponses[codeStr]?.description ?? 'Response'` on line 525 show the
intended behaviour; the unguarded `in` is the slip. -/

/-- The failing controller of C1: one handler at `/a` annotated
`@response(201)` with no content. -/
def c1Controller : Controller :=
  { id := 0
    md := some
      { pathMap := [(Site.method "h", ["/a"])]
        responseMap := [(Site.method "h", [{ code := 201 }])] } }

/-- C1: the code's actual behaviour at the failing input — a handler with a
single `@response(201)` (no content) makes `getOpenAPISchema` throw the
TypeError instead of producing a `"Response"` entry. -/
theorem response_default_code_bug :
    getOpenAPISchema {} [c1Controller] = .error inUndefinedMsg
    ∧ resolveTupleEntry { code := 201 } = .error inUndefinedMsg := by
  constructor
  · simp +decide [c1Controller, getOpenAPISchema, synthController, synthStep, buildOperation,
      buildResponses, buildResponsesGo, resolveTupleEntry, defaultResponses, methodPathEntries,
      lookupA, oaPathOf, scanPath_nil, scanPath_cons, tryParam, splitName, isWordChar,
      renderToks, lbrace, rbrace, pathParams, setA, bind, Except.bind, truthyStr, dedupFirst,
      dedupFirst.go, Except.map, throw, throwThe, MonadExceptOf.throw, Functor.map, pure,
      Except.pure]
  · rfl

/-! ### C2: folding several response tuples with the same status code

The claim says later tuples overwrite earlier ones field-by-field, a field
not supplied by a later tuple keeping the earlier tuple's value.  The source
instead executes `oaResponses[codeStr] = { description: ..., content: ...,
headers: ... }` (lines 524-529), replacing the whole entry: a field absent
from the later tuple is resolved from the built-in defaults (or
`"Response"`), never from the earlier tuple. -/

def respA : ResponseMeta := { code := 200, description := some "A" }
def respB : ResponseMeta := { code := 200, content := some (.str "Widget") }

/-- C2 counterexample: tuple `respA` supplies description `"A"` for code
200; the later tuple `respB` supplies only content.  Under the claim the
folded 200 entry would keep description `"A"`; the code produces the
built-in default `"Successful request"` — the later tuple's entry replaced
the earlier one wholesale. -/
theorem responses_merge_counterexample :
    buildResponses [respA, respB] = .ok [("200",
      { description := "Successful request"
        content := some [("application/json", .withSchema (.refTo (.ref "#/components/schemas/Widget")))]
        headers := none })]
    ∧ ("Successful request" ≠ "A") := by
  constructor
  · rfl
  · decide

theorem buildResponsesGo_lookup (ts : List ResponseMeta) :
    ∀ (acc m : List (String × OAResponse)), buildResponsesGo acc ts = .ok m → ∀ cd : String,
      lookupA cd m =
        match (ts.filter fun t => toString t.code = cd).getLast? with
        | none => lookupA cd acc
        | some t => (resolveTupleEntry t).toOption := by
  induction ts with
  | nil =>
    intro acc m h cd
    cases h
    simp
  | cons t rest ih =>
    intro acc m h cd
    simp only [buildResponsesGo] at h
    cases hre : resolveTupleEntry t with
    | error e => rw [hre] at h; cases h
    | ok entry =>
      rw [hre] at h
      have hrec := ih _ _ h cd
      rw [hrec]
      by_cases hcd : toString t.code = cd
      · have hb : (decide (toString t.code = cd)) = true := by simp [hcd]
        rw [List.filter_cons, hb, if_pos rfl]
        cases hrf : (rest.filter fun t => decide (toString t.code = cd)).getLast? with
        | some t' => simp [List.getLast?_cons, hrf, Option.getD]
        | none =>
          have hrfn : (rest.filter fun t => decide (toString t.code = cd)) = [] := by
            cases hl : (rest.filter fun t => decide (toString t.code = cd)) with
            | nil => rfl
            | cons x xs =>
              rw [hl] at hrf
              exact absurd hrf (by simp [List.getLast?_cons])
          simp [hrfn, hcd, lookupA_setA_self, hre, Except.toOption]
      · have hb : (decide (toString t.code = cd)) = false := by simp [hcd]
        rw [List.filter_cons, hb, if_neg Bool.false_ne_true]
        cases hrf : (rest.filter fun t => decide (toString t.code = cd)).getLast? with
        | some t' => rfl
        | none => simp [lookupA_setA_ne _ _ hcd]

/-- C2 amended.  When several response tuples share a status code, the last
tuple's entry wholly replaces the earlier entries under that code: for every
code, the folded map's entry is exactly the entry resolved from the last
tuple carrying that code (fields absent there fall back to the built-in
defaults, not to earlier tuples). -/
theorem responses_last_tuple_wins (ts : List ResponseMeta) (m : List (String × OAResponse))
    (h : buildResponses ts = .ok m) (cd : String) :
    lookupA cd m =
      match (ts.filter fun t => toString t.code = cd).getLast? with
      | none => none
      | some t => (resolveTupleEntry t).toOption := by
  have hrec := buildResponsesGo_lookup ts [] m h cd
  rw [hrec]
  rfl

/-- C2 amended witness at `[respA, respB]` and code `"200"`. -/
theorem responses_last_tuple_wins_witness :
    lookupA "200" [("200",
      ({ description := "Successful request"
         content := some [("application/json", .withSchema (.refTo (.ref "#/components/schemas/Widget")))]
         headers := none } : OAResponse))] =
      match ([respA, respB].filter fun t => toString t.code = "200").getLast? with
      | none => none
      | some t => (resolveTupleEntry t).toOption :=
  responses_last_tuple_wins [respA, respB] _ rfl "200"

/-! ### C4: duplicate (translated path, method) pairs -/

/-- A controller with one class path, one handler with one method path and
an explicit handler-level HTTP method, and no other annotations. -/
def simpleController (id : Nat) (cp mp n : String) (M : HttpMethod) : Controller :=
  { id := id
    md := some
      { pathMap := [(Site.cls, [cp]), (Site.method n, [mp])]
        methodMap := [(Site.method n, M)] } }

/-- C4.  When two controller operations resolve to the same (translated
path, lower-cased method) pair, document synthesis fails with the
duplicate-path-method error naming that pair, while route resolution over
the same controllers raises nothing and appends and registers both
records. -/
theorem duplicate_path_method_asymmetry (cp1 mp1 n1 cp2 mp2 n2 : String) (M1 M2 : HttpMethod)
    (hpath : oaPathOf (cp1 ++ mp1) = oaPathOf (cp2 ++ mp2))
    (hmeth : M1.lower = M2.lower) :
    getOpenAPISchema {} [simpleController 0 cp1 mp1 n1 M1, simpleController 1 cp2 mp2 n2 M2]
      = .error ("Duplicate path definition found for \x27" ++ M2.lower ++ " "
          ++ oaPathOf (cp2 ++ mp2) ++ "\x27")
    ∧ registerControllers [simpleController 0 cp1 mp1 n1 M1, simpleController 1 cp2 mp2 n2 M2]
      = [{ method := M1, path := cp1 ++ mp1, middlewares := [], handler := (0, n1) },
         { method := M2, path := cp2 ++ mp2, middlewares := [], handler := (1, n2) }] := by
  constructor
  · simp [simpleController, getOpenAPISchema, synthController, synthStep, buildOperation,
      methodPathEntries, lookupA, setA, bind, Except.bind, truthyStr, dedupFirst,
      dedupFirst.go, pure, Except.pure, hpath, hmeth]
  · simp [simpleController, registerControllers, methodPathEntries, lookupA]

/-- C4's witness: two controllers whose class+method paths concatenate to
the same `/a/b` with the same (default-cased) GET method. -/
theorem duplicate_path_method_asymmetry_witness :
    getOpenAPISchema {} [simpleController 0 "/a" "/b" "h1" .GET, simpleController 1 "/a" "/b" "h2" .GET]
      = .error "Duplicate path definition found for \x27get /a/b\x27"
    ∧ registerControllers [simpleController 0 "/a" "/b" "h1" .GET, simpleController 1 "/a" "/b" "h2" .GET]
      = [{ method := .GET, path := "/a" ++ "/b", middlewares := [], handler := (0, "h1") },
         { method := .GET, path := "/a" ++ "/b", middlewares := [], handler := (1, "h2") }] := by
  have h := duplicate_path_method_asymmetry "/a" "/b" "h1" "/a" "/b" "h2" .GET .GET rfl rfl
  refine ⟨?_, h.2⟩
  rw [h.1]
  simp +decide [oaPathOf, scanPath_nil, scanPath_cons, tryParam, splitName, isWordChar,
    renderToks, HttpMethod.lower]

/-! ### C10: collisions with the base document's own paths -/

/-- C10.  The duplicate-(path, method) check also fires against operations
already present in the caller's base document: if the base's paths section
holds the translated path with the same lower-cased method, synthesis fails
with the duplicate-path error even though no two controller operations
collide.  And for a translated path pre-existing in the base document the
fresh-path branch is skipped, so no derived path parameters are attached:
the base item's parameter list is kept verbatim while the operation is added
to it. -/
theorem base_document_collision (cp mp n : String) (M : HttpMethod)
    (item : PathItem) (op0 : Operation) (P : Option (List ParameterObject))
    (ops0 : List (String × Operation)) :
    (lookupA M.lower item.ops = some op0 →
      getOpenAPISchema { paths := some [(oaPathOf (cp ++ mp), item)] }
          [simpleController 0 cp mp n M]
        = .error ("Duplicate path definition found for \x27" ++ M.lower ++ " "
            ++ oaPathOf (cp ++ mp) ++ "\x27"))
    ∧ (lookupA M.lower ops0 = none →
      getOpenAPISchema { paths := some [(oaPathOf (cp ++ mp), { parameters := P, ops := ops0 })] }
          [simpleController 0 cp mp n M]
        = .ok { paths := some [(oaPathOf (cp ++ mp),
            { parameters := P
              ops := setA M.lower { operationId := some n } ops0 })] }) := by
  constructor
  · intro h
    simp [simpleController, getOpenAPISchema, synthController, synthStep, buildOperation,
      methodPathEntries, lookupA, setA, bind, Except.bind, truthyStr, dedupFirst,
      dedupFirst.go, pure, Except.pure, h]
  · intro h
    simp [simpleController, getOpenAPISchema, synthController, synthStep, buildOperation,
      methodPathEntries, lookupA, setA, bind, Except.bind, truthyStr, dedupFirst,
      dedupFirst.go, pure, Except.pure, h]

/-- C10's witness: the base document already documents `get /a/{id}` (first
part), and documents only `post /a/{id}` with its own parameter list while
the controller contributes `get` with path `/a/:id` (second part: the base
item's parameters survive unchanged; the derived `id` parameter is not
attached). -/
theorem base_document_collision_witness :
    (getOpenAPISchema { paths := some [("/a/{id}",
          { parameters := none, ops := [("get", { operationId := some "x" })] })] }
        [simpleController 0 "/a" "/:id" "h" .GET]
      = .error "Duplicate path definition found for \x27get /a/{id}\x27")
    ∧ (getOpenAPISchema { paths := some [("/a/{id}",
          { parameters := some [{ name := "q", location := "query", required := false, schema := .plain }]
            ops := [("post", { operationId := some "x" })] })] }
        [simpleController 0 "/a" "/:id" "h" .GET]
      = .ok { paths := some [("/a/{id}",
          { parameters := some [{ name := "q", location := "query", required := false, schema := .plain }]
            ops := [("post", { operationId := some "x" }), ("get", { operationId := some "h" })] })] }) := by
  have hoa : oaPathOf ("/a" ++ "/:id") = "/a/{id}" := by
    simp +decide [oaPathOf, scanPath_nil, scanPath_cons, tryParam, splitName, isWordChar,
      renderToks, lbrace, rbrace, String.mk]
  have h := base_document_collision "/a" "/:id" "h" HttpMethod.GET
    { parameters := none, ops := [("get", { operationId := some "x" })] }
    { operationId := some "x" }
    (some [{ name := "q", location := "query", required := false, schema := .plain }])
    [("post", { operationId := some "x" })]
  rw [hoa] at h
  constructor
  · exact h.1 (by rfl)
  · have h2 := h.2 (by rfl)
    rw [h2]
    rfl

/-! ### C8: the constant-to-enumeration rewrite and reference inlining -/

theorem attach_map_pair {α β γ : Type} (l : List (α × β)) (g : β → γ) :
    (l.attach.map fun x => (x.1.1, g x.1.2)) = l.map fun p => (p.1, g p.2) :=
  List.attach_map_coe l fun p => (p.1, g p.2)

theorem lookupA_mapVal {α β γ : Type} [DecidableEq α] (k : α) (l : List (α × β)) (g : β → γ) :
    lookupA k (l.map fun p => (p.1, g p.2)) = (lookupA k l).map g := by
  induction l with
  | nil => simp [lookupA]
  | cons p rest ih =>
    by_cases hk : p.1 = k
    · simp [lookupA, hk]
    · simp [lookupA, hk, ih]

theorem lookupA_removeF_self (k : String) (l : List (String × JVal)) :
    lookupA k (removeF k l) = none := by
  induction l with
  | nil => rfl
  | cons p rest ih =>
    obtain ⟨a, b⟩ := p
    rw [removeF, List.filter_cons]
    by_cases hk : a = k
    · have hb : (decide ((a, b).1 ≠ k)) = false := by simp [hk]
      rw [hb, if_neg Bool.false_ne_true]
      exact ih
    · have hb : (decide ((a, b).1 ≠ k)) = true := by simp [hk]
      rw [hb, if_pos rfl, lookupA, if_neg hk]
      exact ih

theorem lookupA_removeF_ne {k k' : String} (l : List (String × JVal)) (h : k ≠ k') :
    lookupA k (removeF k' l) = lookupA k l := by
  induction l with
  | nil => rfl
  | cons p rest ih =>
    obtain ⟨a, b⟩ := p
    rw [removeF, List.filter_cons]
    by_cases hk : a = k'
    · have hb : (decide ((a, b).1 ≠ k')) = false := by simp [hk]
      have hak : ¬a = k := fun hh => h (by rw [← hh]; exact hk)
      rw [hb, if_neg Bool.false_ne_true, lookupA, if_neg hak]
      exact ih
    · have hb : (decide ((a, b).1 ≠ k')) = true := by simp [hk]
      rw [hb, if_pos rfl, lookupA, lookupA]
      by_cases hak : a = k
      · rw [if_pos hak, if_pos hak]
      · rw [if_neg hak, if_neg hak]
        exact ih

theorem mem_removeF {p : String × JVal} {k : String} {l : List (String × JVal)}
    (h : p ∈ removeF k l) : p ∈ l :=
  List.mem_of_mem_filter h

theorem mem_setA {α β : Type} [DecidableEq α] {p : α × β} {k : α} {v : β}
    {l : List (α × β)} (h : p ∈ setA k v l) : p.2 = v ∨ p ∈ l := by
  induction l with
  | nil =>
    simp [setA] at h
    subst h
    left
    rfl
  | cons q rest ih =>
    rw [setA] at h
    by_cases hk : q.1 = k
    · obtain ⟨a, b⟩ := q
      simp only at hk
      rw [if_pos hk] at h
      rcases List.mem_cons.mp h with h1 | h1
      · subst h1
        left
        rfl
      · right
        exact List.mem_cons_of_mem _ h1
    · obtain ⟨a, b⟩ := q
      simp only at hk
      rw [if_neg hk] at h
      rcases List.mem_cons.mp h with h1 | h1
      · right
        subst h1
        exact List.mem_cons_self _ _
      · rcases ih h1 with h2 | h2
        · left
          exact h2
        · right
          exact List.mem_cons_of_mem _ h2

theorem cleanB_obj (fields : List (String × JVal)) :
    cleanB (.obj fields) = true ↔
      refNameOf fields = none ∧ lookupA "const" fields = none
        ∧ ∀ p ∈ fields, cleanB p.2 = true := by
  rw [cleanB]
  simp only [Bool.and_eq_true, Option.isNone_iff_eq_none, List.all_eq_true]
  constructor
  · rintro ⟨⟨h1, h2⟩, h3⟩
    exact ⟨h1, h2, fun p hp => h3 ⟨p, hp⟩ (List.mem_attach _ _)⟩
  · rintro ⟨h1, h2, h3⟩
    exact ⟨⟨h1, h2⟩, fun x _ => h3 x.1 x.2⟩

theorem cleanB_arr (xs : List JVal) :
    cleanB (.arr xs) = true ↔ ∀ x ∈ xs, cleanB x = true := by
  rw [cleanB]
  simp only [List.all_eq_true]
  constructor
  · intro h x hx
    exact h ⟨x, hx⟩ (List.mem_attach _ _)
  · intro h x _
    exact h x.1 x.2

theorem refStrB_obj {fields : List (String × JVal)} (h : refStrB (.obj fields) = true) :
    (∀ v, lookupA "$ref" fields = some v → ∃ s, v = JVal.str s)
    ∧ ∀ p ∈ fields, refStrB p.2 = true := by
  rw [refStrB] at h
  simp only [Bool.and_eq_true, List.all_eq_true] at h
  obtain ⟨h1, h2⟩ := h
  constructor
  · intro v hv
    rw [hv] at h1
    cases v with
    | str s => exact ⟨s, rfl⟩
    | null => simp at h1
    | bool b => simp at h1
    | num n => simp at h1
    | arr xs => simp at h1
    | obj fs => simp at h1
  · exact fun p hp => h2 ⟨p, hp⟩ (List.mem_attach _ _)

theorem refStrB_arr {xs : List JVal} (h : refStrB (.arr xs) = true) :
    ∀ x ∈ xs, refStrB x = true := by
  rw [refStrB] at h
  simp only [List.all_eq_true] at h
  exact fun x hx => h ⟨x, hx⟩ (List.mem_attach _ _)

theorem refsOf_obj_ref {fields : List (String × JVal)} {s : String}
    (h : refNameOf fields = some s) : refsOf (.obj fields) = [s] := by
  rw [refsOf, h]

theorem refsOf_obj_nonref {fields : List (String × JVal)}
    (h : refNameOf fields = none) {p : String × JVal} (hp : p ∈ fields) :
    ∀ m ∈ refsOf p.2, m ∈ refsOf (.obj fields) := by
  intro m hm
  rw [refsOf, h]
  simp only [List.mem_flatMap]
  exact ⟨⟨p, hp⟩, List.mem_attach _ _, hm⟩

theorem refsOf_arr {xs : List JVal} {x : JVal} (hx : x ∈ xs) :
    ∀ m ∈ refsOf x, m ∈ refsOf (.arr xs) := by
  intro m hm
  rw [refsOf]
  simp only [List.mem_flatMap]
  exact ⟨⟨x, hx⟩, List.mem_attach _ _, hm⟩

theorem refNameOf_congr {l1 l2 : List (String × JVal)}
    (h : lookupA "$ref" l1 = lookupA "$ref" l2) : refNameOf l1 = refNameOf l2 := by
  rw [refNameOf, refNameOf, h]

theorem refNameOf_mapFix (fields : List (String × JVal)) (g : JVal → JVal)
    (hg : ∀ s, g (.str s) = .str s)
    (h : refNameOf fields = none)
    (hstr : ∀ v, lookupA "$ref" fields = some v → ∃ s, v = JVal.str s) :
    refNameOf (fields.map fun p => (p.1, g p.2)) = none := by
  rw [refNameOf, lookupA_mapVal]
  cases hv : lookupA "$ref" fields with
  | none => rfl
  | some v =>
    obtain ⟨s, rfl⟩ := hstr v hv
    rw [Option.map_some', hg]
    rw [refNameOf, hv] at h
    simpa using h

/-- The core convergence/cleanliness theorem for the fix pass: with a
wellformed definitions table, enough fuel for every reachable reference, and
string-valued `$ref` members, the fixed value contains no `const` field and
no internal reference anywhere. -/
theorem fixNode_clean (defs : List (String × JVal)) (rank : String → Nat)
    (hwf : DefsWF defs rank) :
    ∀ (fuel : Nat) (v : JVal),
      (∀ n ∈ refsOf v, (∃ b, lookupA n defs = some b) ∧ rank n < fuel) →
      refStrB v = true →
      cleanB (fixNode defs fuel v) = true := by
  intro fuel v
  induction fuel, v using fixNode.induct defs with
  | case1 fields s h1 f body hlk ih =>
    intro hrefs _
    have heq : fixNode defs (f + 1) (.obj fields) = fixNode defs f body := by
      simp [fixNode, h1, hlk]
    rw [heq]
    have hs := hrefs s (by rw [refsOf_obj_ref h1]; exact List.mem_cons_self _ _)
    obtain ⟨hb, hrank⟩ := hs
    obtain ⟨hbody1, hbody2, hbody3⟩ := hwf s body hlk
    apply ih
    · intro m hm
      obtain ⟨hres, hlt⟩ := hbody3 m hm
      exact ⟨hres, by omega⟩
    · exact hbody2
  | case2 fuel fields s h1 h2 =>
    intro hrefs _
    have hs := hrefs s (by rw [refsOf_obj_ref h1]; exact List.mem_cons_self _ _)
    obtain ⟨⟨b, hb⟩, hrank⟩ := hs
    cases fuel with
    | zero => omega
    | succ f => exact absurd hb (fun hh => h2 f b rfl hh)
  | case3 fuel fields h1 h2 ih =>
    intro hrefs hrstr
    obtain ⟨hstr1, hstr2⟩ := refStrB_obj hrstr
    have heq : fixNode defs fuel (.obj fields)
        = .obj (fields.map fun p => (p.1, fixNode defs fuel p.2)) := by
      rw [fixNode.eq_def]
      simp only [h1]
      split
      · rw [attach_map_pair]
      · rename_i c hc2
        rw [h2] at hc2
        cases hc2
    rw [heq]
    rw [cleanB_obj]
    refine ⟨?_, ?_, ?_⟩
    · exact refNameOf_mapFix fields _ (fun s => by rw [fixNode.eq_def]) h1 hstr1
    · rw [lookupA_mapVal, h2]
      rfl
    · intro p hp
      obtain ⟨q, hq, hqe⟩ := List.mem_map.mp hp
      rw [← hqe]
      exact ih ⟨q, hq⟩
        (fun m hm => hrefs m (refsOf_obj_nonref h1 hq m hm))
        (hstr2 q hq)
  | case4 fuel fields h1 c hc ih ihc =>
    intro hrefs hrstr
    obtain ⟨hstr1, hstr2⟩ := refStrB_obj hrstr
    have hcm := lookupA_mem hc
    have heq : fixNode defs fuel (.obj fields)
        = .obj (removeF "const" (setA "enum" (.arr [fixNode defs fuel c])
            (fields.map fun p => (p.1, fixNode defs fuel p.2)))) := by
      rw [fixNode.eq_def]
      simp only [h1]
      split
      · rename_i hc2
        rw [hc] at hc2
        cases hc2
      · rename_i c2 hc2
        rw [hc] at hc2
        cases hc2
        rw [attach_map_pair]
    rw [heq]
    rw [cleanB_obj]
    refine ⟨?_, lookupA_removeF_self _ _, ?_⟩
    · have hl : lookupA "$ref" (removeF "const" (setA "enum" (JVal.arr [fixNode defs fuel c])
          (fields.map fun p => (p.1, fixNode defs fuel p.2))))
          = lookupA "$ref" (fields.map fun p => (p.1, fixNode defs fuel p.2)) := by
        rw [lookupA_removeF_ne _ (by decide), lookupA_setA_ne _ _ (by decide)]
      rw [refNameOf_congr hl]
      exact refNameOf_mapFix fields _ (fun s => by rw [fixNode.eq_def]) h1 hstr1
    · intro p hp
      rcases mem_setA (mem_removeF hp) with h3 | h3
      · rw [h3, cleanB_arr]
        intro x hx
        rw [List.mem_singleton] at hx
        rw [hx]
        exact ihc
          (fun m hm => hrefs m (refsOf_obj_nonref h1 hcm m hm))
          (hstr2 _ hcm)
      · obtain ⟨q, hq, hqe⟩ := List.mem_map.mp h3
        rw [← hqe]
        exact ih ⟨q, hq⟩
          (fun m hm => hrefs m (refsOf_obj_nonref h1 hq m hm))
          (hstr2 q hq)
  | case5 fuel xs ih =>
    intro hrefs hrstr
    have heq : fixNode defs fuel (.arr xs) = .arr (xs.map (fixNode defs fuel)) := by
      rw [fixNode.eq_def]
      exact congrArg JVal.arr (List.attach_map_coe xs (fixNode defs fuel))
    rw [heq, cleanB_arr]
    intro x hx
    obtain ⟨y, hy, hye⟩ := List.mem_map.mp hx
    rw [← hye]
    exact ih ⟨y, hy⟩
      (fun m hm => hrefs m (refsOf_arr hy m hm))
      (refStrB_arr hrstr y hy)
  | case6 fuel v hobj harr =>
    intro hrefs hrstr
    have heq : fixNode defs fuel v = v := by
      rw [fixNode.eq_def]
      cases v with
      | obj fields => exact absurd rfl (hobj fields)
      | arr xs => exact absurd rfl (harr xs)
      | null => rfl
      | bool b => rfl
      | num n => rfl
      | str s => rfl
    rw [heq]
    cases v with
    | obj fields => exact absurd rfl (hobj fields)
    | arr xs => exact absurd rfl (harr xs)
    | null => rw [cleanB.eq_def]
    | bool b => rw [cleanB.eq_def]
    | num n => rw [cleanB.eq_def]
    | str s => rw [cleanB.eq_def]

/-- A derived schema whose root itself carries a single-constant
restriction, next to a definitions table. -/
def c8schema : JVal :=
  .obj [("definitions", .obj [("D", .obj [("type", .str "string")])]),
        ("const", .num 5)]

/-- C8 counterexample: the fix pass rewrites `const` only on child nodes
(`'const' in target` is tested on children during the walk, never on the
object the walk starts from), so the schema root's own constant restriction
survives and no enumeration is added — against the claim's "including the
schema root". -/
theorem schema_root_const_counterexample :
    processSchema 10 c8schema = .obj [("const", JVal.num 5)]
    ∧ lookupA "const" [("const", JVal.num 5)] = some (JVal.num 5)
    ∧ lookupA "enum" [("const", JVal.num 5)] = none := by
  refine ⟨?_, rfl, rfl⟩
  simp +decide [processSchema, c8schema, fixRoot, fixNode, refNameOf, lookupA, removeF,
    setA, jTruthy, defsTableOf, defsPrefix, List.attach, List.attachWith]

/-- C8 amended.  In schema aggregation with a definitions table present, for
every node strictly below the schema root (including the bodies substituted
for internal cross-references) the single-constant restriction is rewritten
to a one-value enumeration with the constant removed, and every internal
`#/definitions/` cross-reference is replaced by the resolved definition: no
node below the root of the processed schema carries a `const` field or an
internal reference.  (Hypotheses: references resolve and are acyclic via a
rank, no definition body is a bare reference, `$ref` members are strings —
the shapes the generator emits; the root's own `const` is not rewritten, see
the counterexample.) -/
theorem schema_fix_clean (fields defs : List (String × JVal)) (rank : String → Nat) (fuel : Nat)
    (hdefs : lookupA "definitions" fields = some (.obj defs))
    (hwf : DefsWF defs rank)
    (hrefs : ∀ p ∈ fields, ∀ n ∈ refsOf p.2, (∃ b, lookupA n defs = some b) ∧ rank n < fuel)
    (hrstr : ∀ p ∈ fields, refStrB p.2 = true) :
    ∃ fs, processSchema fuel (.obj fields) = .obj fs ∧ ∀ p ∈ fs, cleanB p.2 = true := by
  have hfix : fixRoot defs fuel (.obj fields)
      = .obj (fields.map fun p => (p.1, fixNode defs fuel p.2)) := rfl
  have hps : processSchema fuel (.obj fields)
      = .obj (removeF "$schema" (removeF "definitions"
          (fields.map fun p => (p.1, fixNode defs fuel p.2)))) := by
    simp only [processSchema, hdefs, jTruthy, defsTableOf, hfix, if_true]
  refine ⟨_, hps, ?_⟩
  intro p hp
  obtain ⟨q, hq, hqe⟩ := List.mem_map.mp (mem_removeF (mem_removeF hp))
  rw [← hqe]
  exact fixNode_clean defs rank hwf fuel q.2 (hrefs q hq) (hrstr q hq)

/-- C8's witness: a schema with an (empty) definitions table and a child
node carrying a `const`, processed with fuel 3 and the constant rank. -/
theorem schema_fix_clean_witness :
    ∃ fs, processSchema 3 (.obj [("definitions", .obj []), ("a", .obj [("const", .str "x")])])
        = .obj fs
      ∧ ∀ p ∈ fs, cleanB p.2 = true := by
  refine schema_fix_clean [("definitions", .obj []), ("a", .obj [("const", .str "x")])]
    [] (fun _ => 0) 3 rfl ?_ ?_ ?_
  · intro n b h
    simp [lookupA] at h
  · intro p hp n hn
    fin_cases hp <;>
      simp [refsOf, refNameOf, lookupA, List.attach, List.attachWith] at hn
  · intro p hp
    fin_cases hp <;>
      simp [refStrB, refNameOf, lookupA, List.attach, List.attachWith]

/-! ### C6: the clone of the base document shares no mutable node with it -/

theorem mem_le_maxAddr {h : Heap} {p : Nat × HNode} (hp : p ∈ h) : p.1 ≤ maxAddr h := by
  induction h with
  | nil => cases hp
  | cons q rest ih =>
    rcases List.mem_cons.mp hp with h1 | h1
    · subst h1
      simp [maxAddr]
    · have := ih h1
      simp only [maxAddr, List.foldr_cons] at *
      omega

theorem lookupH_none_of_gt {h : Heap} {a : Nat} (ha : maxAddr h < a) :
    lookupH a h = none := by
  cases hl : lookupH a h with
  | none => rfl
  | some n =>
    have := mem_le_maxAddr (lookupA_mem hl)
    omega

theorem some_triple_inj {α β γ : Type} {a x : α} {b y : β} {c z : γ}
    (h : some (a, b, c) = some (x, y, z)) : a = x ∧ b = y ∧ c = z := by
  cases h
  exact ⟨rfl, rfl, rfl⟩

theorem lookupH_append_none {a : Nat} {h : Heap} (es : Heap) (hn : lookupH a h = none) :
    lookupH a (h ++ es) = lookupA a es := by
  simp only [lookupH] at *
  rw [lookupA_append, hn]

theorem lookupA_updateH_ne {b c : Nat} (n : HNode) (H : Heap) (hne : b ≠ c) :
    lookupH c (updateH b n H) = lookupH c H := by
  induction H with
  | nil => rfl
  | cons p rest ih =>
    obtain ⟨a, m⟩ := p
    simp only [updateH, lookupH, List.map_cons] at ih ⊢
    by_cases hab : (a, m).1 = b
    · rw [if_pos hab]
      simp only at hab
      subst hab
      rw [lookupA, lookupA, if_neg hne, if_neg hne]
      exact ih
    · rw [if_neg hab]
      simp only at hab
      rw [lookupA, lookupA]
      by_cases hac : a = c
      · rw [if_pos hac, if_pos hac]
      · rw [if_neg hac, if_neg hac]
        exact ih

/-- The range facts delivered by a successful clone at a given fuel: all new
entries live in `[nf, nf')`, their children point into `[nf, nf')`, and the
returned roots lie in `[nf, nf')`. -/
def CloneGoOK (h : Heap) (fuel : Nat) : Prop :=
  ∀ a nf es r nf', cloneGo h fuel a nf = some (es, r, nf') →
    nf ≤ nf' ∧ nf ≤ r ∧ r < nf'
    ∧ (∀ p ∈ es, nf ≤ p.1 ∧ p.1 < nf')
    ∧ (∀ p ∈ es, ∀ b ∈ childAddrs p.2, nf ≤ b ∧ b < nf')

def CloneListOK (h : Heap) (fuel : Nat) : Prop :=
  ∀ as nf es rs nf', cloneList h fuel as nf = some (es, rs, nf') →
    nf ≤ nf' ∧ (∀ r ∈ rs, nf ≤ r ∧ r < nf')
    ∧ (∀ p ∈ es, nf ≤ p.1 ∧ p.1 < nf')
    ∧ (∀ p ∈ es, ∀ b ∈ childAddrs p.2, nf ≤ b ∧ b < nf')

theorem cloneList_ok_of_go (h : Heap) (fuel : Nat) (hgo : CloneGoOK h fuel) :
    CloneListOK h fuel := by
  intro as
  induction as with
  | nil =>
    intro nf es rs nf' hcl
    rw [cloneList] at hcl
    cases hcl
    refine ⟨le_refl _, ?_, ?_, ?_⟩ <;> simp
  | cons a rest ih =>
    intro nf es rs nf' hcl
    rw [cloneList] at hcl
    split at hcl
    · cases hcl
    · rename_i es1 r1 nf1 hg
      split at hcl
      · cases hcl
      · rename_i es2 rs2 nf2 hl
        obtain ⟨he, hr, hn⟩ := some_triple_inj hcl
        subst he
        subst hr
        subst hn
        obtain ⟨g1, g2, g3, g4, g5⟩ := hgo a nf es1 r1 nf1 hg
        obtain ⟨l1, l2, l3, l4⟩ := ih nf1 es2 rs2 nf2 hl
        refine ⟨by omega, ?_, ?_, ?_⟩
        · intro r hr
          rcases List.mem_cons.mp hr with h1 | h1
          · subst h1
            omega
          · have := l2 r h1
            omega
        · intro p hp
          rcases List.mem_append.mp hp with h1 | h1
          · have := g4 p h1
            omega
          · have := l3 p h1
            omega
        · intro p hp b hb
          rcases List.mem_append.mp hp with h1 | h1
          · have := g5 p h1 b hb
            omega
          · have := l4 p h1 b hb
            omega

theorem cloneGo_ok (h : Heap) : ∀ fuel, CloneGoOK h fuel := by
  intro fuel
  induction fuel with
  | zero =>
    intro a nf es r nf' hcg
    rw [cloneGo] at hcg
    cases hcg
  | succ f ihf =>
    have hlist : CloneListOK h f := cloneList_ok_of_go h f ihf
    intro a nf es r nf' hcg
    rw [cloneGo] at hcg
    split at hcg
    · cases hcg
    · rename_i t hlk
      obtain ⟨he, hr, hn⟩ := some_triple_inj hcg
      subst he
      subst hr
      subst hn
      refine ⟨by omega, le_refl _, by omega, ?_, ?_⟩
      · intro p hp
        rw [List.mem_singleton] at hp
        subst hp
        exact ⟨le_refl _, by omega⟩
      · intro p hp b hb
        rw [List.mem_singleton] at hp
        subst hp
        cases hb
    · rename_i elems hlk
      split at hcg
      · cases hcg
      · rename_i es1 roots nf1 hcl
        obtain ⟨he, hr, hn⟩ := some_triple_inj hcg
        subst he
        subst hr
        subst hn
        obtain ⟨l1, l2, l3, l4⟩ := hlist elems nf es1 roots nf1 hcl
        refine ⟨by omega, by omega, by omega, ?_, ?_⟩
        · intro p hp
          rcases List.mem_append.mp hp with h1 | h1
          · have := l3 p h1
            omega
          · rw [List.mem_singleton] at h1
            subst h1
            exact ⟨by omega, by omega⟩
        · intro p hp b hb
          rcases List.mem_append.mp hp with h1 | h1
          · have := l4 p h1 b hb
            omega
          · rw [List.mem_singleton] at h1
            subst h1
            simp only [childAddrs] at hb
            have := l2 b hb
            omega
    · rename_i fields hlk
      split at hcg
      · cases hcg
      · rename_i es1 roots nf1 hcl
        obtain ⟨he, hr, hn⟩ := some_triple_inj hcg
        subst he
        subst hr
        subst hn
        obtain ⟨l1, l2, l3, l4⟩ := hlist (fields.map (·.2)) nf es1 roots nf1 hcl
        refine ⟨by omega, by omega, by omega, ?_, ?_⟩
        · intro p hp
          rcases List.mem_append.mp hp with h1 | h1
          · have := l3 p h1
            omega
          · rw [List.mem_singleton] at h1
            subst h1
            exact ⟨by omega, by omega⟩
        · intro p hp b hb
          rcases List.mem_append.mp hp with h1 | h1
          · have := l4 p h1 b hb
            omega
          · rw [List.mem_singleton] at h1
            subst h1
            simp only [childAddrs, List.mem_map] at hb
            obtain ⟨q, hq, hqe⟩ := hb
            have hm := (List.of_mem_zip hq).2
            rw [← hqe]
            have := l2 _ hm
            omega

theorem some_pair_inj {α β : Type} {a x : α} {b y : β}
    (h : some (a, b) = some (x, y)) : a = x ∧ b = y := by
  cases h
  exact ⟨rfl, rfl⟩

/-- Everything reachable from the clone's root lives in the fresh address
range. -/
theorem reach_fresh (h es : Heap) (r : Nat) (nf nf' : Nat)
    (hkeys : ∀ p ∈ es, nf ≤ p.1 ∧ p.1 < nf')
    (hchild : ∀ p ∈ es, ∀ c ∈ childAddrs p.2, nf ≤ c ∧ c < nf')
    (hr : nf ≤ r ∧ r < nf')
    (hnf : maxAddr h < nf) :
    ∀ b, Reaches (h ++ es) r b → nf ≤ b ∧ b < nf' := by
  intro b hreach
  induction hreach with
  | refl => exact hr
  | step h1 h2 h3 ih =>
    rename_i bmid cnext nmid
    have hmid := ih
    have hnone : lookupH bmid h = none := lookupH_none_of_gt (by omega)
    rw [lookupH_append_none es hnone] at h2
    exact hchild _ (lookupA_mem h2) _ h3

/-- Everything reachable from the base root lives at or below the base
heap's maximal address. -/
theorem base_reach_le (h : Heap) (a : Nat) (hclosed : ClosedHeap h)
    (hroot : (lookupH a h).isSome) :
    ∀ c, Reaches h a c → c ≤ maxAddr h := by
  intro c hre
  induction hre with
  | refl =>
    obtain ⟨n, hn⟩ := Option.isSome_iff_exists.mp hroot
    exact mem_le_maxAddr (lookupA_mem hn)
  | step h1 h2 h3 ih =>
    have hsome := hclosed _ _ h2 _ h3
    obtain ⟨n2, hn2⟩ := Option.isSome_iff_exists.mp hsome
    exact mem_le_maxAddr (lookupA_mem hn2)

/-- C6.  The document handed back by synthesis is built on
`structuredClone(baseOpenAPISchema)` (source line 408) and every subsequent
write of `getOpenAPISchema` targets the clone; the clone is a deep,
independent copy: mutating any node reachable from the clone's root (its
paths, path items, operations, components, ...) leaves every node reachable
from the caller's base document root unchanged. -/
theorem structuredClone_no_aliasing (h : Heap) (fuel a : Nat)
    (hclosed : ClosedHeap h) (hroot : (lookupH a h).isSome)
    (h' : Heap) (r : Nat) (hc : structuredCloneH h fuel a = some (h', r)) :
    ∀ b, Reaches h' r b → ∀ n c, Reaches h a c →
      lookupH c (updateH b n h') = lookupH c h' := by
  rw [structuredCloneH] at hc
  split at hc
  · cases hc
  · rename_i es rr nf' hcg
    obtain ⟨he, hr2⟩ := some_pair_inj hc
    subst he
    subst hr2
    intro b hb n c hcb
    obtain ⟨g1, g2, g3, g4, g5⟩ := cloneGo_ok h fuel a (maxAddr h + 1) es rr nf' hcg
    have hbb : maxAddr h + 1 ≤ b ∧ b < nf' :=
      reach_fresh h es rr (maxAddr h + 1) nf' g4 g5 ⟨g2, g3⟩ (by omega) b hb
    have hcc : c ≤ maxAddr h := base_reach_le h a hclosed hroot c hcb
    exact lookupA_updateH_ne n (h ++ es) (by omega)

/-- A small base-document graph: root object with a `paths` member. -/
def wHeap : Heap := [(0, .hobj [("paths", 1)]), (1, .hprim "doc")]

/-- C6's witness: cloning `wHeap`'s root 0 yields root 3 over the extended
heap; overwriting the clone root (address 3) leaves the base root (address
0) unchanged. -/
theorem structuredClone_no_aliasing_witness :
    lookupH 0 (updateH 3 (.hprim "mutated")
        (wHeap ++ [(2, .hprim "doc"), (3, .hobj [("paths", 2)])]))
      = lookupH 0 (wHeap ++ [(2, .hprim "doc"), (3, .hobj [("paths", 2)])]) := by
  have hclosed : ClosedHeap wHeap := by
    intro x n hlk b hb
    by_cases h0 : (0 : Nat) = x
    · rw [lookupH, wHeap, lookupA, if_pos h0] at hlk
      cases hlk
      rw [childAddrs] at hb
      simp at hb
      subst hb
      rfl
    · by_cases h1 : (1 : Nat) = x
      · rw [lookupH, wHeap, lookupA, if_neg h0, lookupA, if_pos h1] at hlk
        cases hlk
        rw [childAddrs] at hb
        cases hb
      · rw [lookupH, wHeap, lookupA, if_neg h0, lookupA, if_neg h1, lookupA] at hlk
        cases hlk
  have hc : structuredCloneH wHeap 3 0
      = some (wHeap ++ [(2, .hprim "doc"), (3, .hobj [("paths", 2)])], 3) := by
    simp +decide [structuredCloneH, cloneGo, cloneList, maxAddr, lookupH, lookupA, wHeap,
      childAddrs]
  have h := structuredClone_no_aliasing wHeap 3 0 hclosed (by rfl) _ _ hc
  exact h 3 Reaches.refl (.hprim "mutated") 0 Reaches.refl

end EOD
